import Mathlib

/-!
Verification of the geospatial clustering and intersection-matching pipeline
of the kimberley-signage-survey repository.

The development shallowly embeds `src/cluster.ts` (single-linkage clustering
via union-find with path compression, cluster record construction) and
`src/enrich.ts` (point-to-trail matching, per-cluster aggregation, stable
descending sort).  JavaScript numbers are modelled as exact rationals `ℚ`;
the two floating-point geometry kernels from `@turf` — great-circle
(haversine) point distance and great-circle point-to-segment distance — are
abstracted as oracle parameters (`distM`, `pSeg`), since their trigonometry
is not rational.  All other logic is translated directly from the source.
Coordinate pairs are `(lon, lat)`, matching the GeoJSON / turf convention
used by the source (`point([lon, lat])`).
-/

namespace Kimberley

/-- Photo observation record produced by the EXIF stage (`PhotoMeta` in
`cluster.ts`). -/
structure PhotoMeta where
  filename : String
  lat : ℚ
  lon : ℚ
  timestamp : String
deriving DecidableEq, Inhabited

/-! ### Union-find (`unionFind` in `cluster.ts`)

The source's `find` is a recursive function with path compression on a
mutable `parent` array; we embed the array as a `List Nat` threaded through
explicitly, and give the recursion explicit fuel (the source's recursion
terminates because parent chains are acyclic; fuel `p.length` suffices,
which is proved below). -/

/-- Read `parent[i]`; out-of-range reads (which the source never performs)
default to `i` itself. -/
def getP (p : List Nat) (i : Nat) : Nat := p.getD i i

/-- Iterate the parent map `k` times from `i`. -/
def iterP (p : List Nat) : Nat → Nat → Nat
  | 0, i => i
  | k + 1, i => iterP p k (getP p i)

/-- `i` is a root of the union-find forest: `parent[i] == i`. -/
def isRootP (p : List Nat) (i : Nat) : Prop := getP p i = i

instance (p : List Nat) (i : Nat) : Decidable (isRootP p i) := by
  unfold isRootP; infer_instance

/-- Root lookup without path compression, with explicit fuel.  This is the
semantic reading of the source's `find`; the source's compressing `find`
is `findA` below and returns the same root. -/
def rootA : Nat → List Nat → Nat → Nat
  | 0, _, i => i
  | fuel + 1, p, i => if getP p i = i then i else rootA fuel p (getP p i)

/-- Root of `i` in parent list `p`, with fuel `p.length` (sufficient for
every well-formed state, as proved below). -/
def rootD (p : List Nat) (i : Nat) : Nat := rootA p.length p i

/-- The source's `find` with path compression:
`if (parent[i] !== i) parent[i] = find(parent[i]); return parent[i];`
returning the updated parent array together with the root. -/
def findA : Nat → List Nat → Nat → List Nat × Nat
  | 0, p, i => (p, i)
  | fuel + 1, p, i =>
    if getP p i = i then (p, i)
    else
      let r := findA fuel p (getP p i)
      (r.1.set i r.2, r.2)

/-- `find` at fuel `p.length`. -/
def findD (p : List Nat) (i : Nat) : List Nat × Nat := findA p.length p i

/-- The source's `union`:
`const a = find(i); const b = find(j); if (a !== b) parent[a] = b;`. -/
def unionF (p : List Nat) (i j : Nat) : List Nat :=
  let fi := findD p i
  let fj := findD fi.1 j
  if fi.2 ≠ fj.2 then fj.1.set fi.2 fj.2 else fj.1

/-! ### The pairwise clustering loops of `singleLinkageCluster` -/

/-- All index pairs `(i, j)` with `i < j < n`, in the order of the source's
nested loops (`for i` outer, `for j = i+1` inner). -/
def allPairs (n : Nat) : List (Nat × Nat) :=
  (List.range n).flatMap
    (fun i => ((List.range n).filter (fun j => decide (i < j))).map (fun j => (i, j)))

/-- One iteration of the pair loop: union the pair when its distance is
within the threshold (`if (dist <= thresholdM) uf.union(i, j)`).  `d i j`
abstracts `distance(point(photos[i]), point(photos[j]), meters)`. -/
def stepPair (d : Nat → Nat → ℚ) (T : ℚ) (p : List Nat) (pr : Nat × Nat) : List Nat :=
  if d pr.1 pr.2 ≤ T then unionF p pr.1 pr.2 else p

/-- Run the pair loop over a list of pairs. -/
def runPairs (d : Nat → Nat → ℚ) (T : ℚ) (p : List Nat) (L : List (Nat × Nat)) : List Nat :=
  L.foldl (stepPair d T) p

/-- Append member `i` to the group keyed by root `r`, or create a new group
at the end.  This models the source's insertion-ordered
`Map<number, number[]>` with `clusters.get(root).push(i)`. -/
def addToGroup (groups : List (Nat × List Nat)) (r i : Nat) : List (Nat × List Nat) :=
  match groups with
  | [] => [(r, [i])]
  | g :: gs => if g.1 = r then (g.1, g.2 ++ [i]) :: gs else g :: addToGroup gs r i

/-- The grouping loop of `singleLinkageCluster`: for each `i`, compute
`uf.find(i)` (compressing, so the parent state is threaded) and add `i` to
its root's group. -/
def groupLoop (p : List Nat) (groups : List (Nat × List Nat)) :
    List Nat → List Nat × List (Nat × List Nat)
  | [] => (p, groups)
  | i :: rest =>
    let f := findD p i
    groupLoop f.1 (addToGroup groups f.2 i) rest

/-- Turf point coordinates `[lon, lat]` of `photos[i]`. -/
def coordAt (photos : List PhotoMeta) (i : Nat) : ℚ × ℚ :=
  match photos.get? i with
  | some p => (p.lon, p.lat)
  | none => (0, 0)

/-- Distance between photos `i` and `j` through the abstracted haversine
oracle `distM`. -/
def distIdx (distM : ℚ × ℚ → ℚ × ℚ → ℚ) (photos : List PhotoMeta) (i j : Nat) : ℚ :=
  distM (coordAt photos i) (coordAt photos j)

/-- `singleLinkageCluster` from `cluster.ts`: union all pairs within the
threshold, then group indices by their union-find root, returning the list
of member-index lists (the values of the insertion-ordered map). -/
def singleLinkageCluster (distM : ℚ × ℚ → ℚ × ℚ → ℚ) (photos : List PhotoMeta)
    (T : ℚ) : List (List Nat) :=
  let n := photos.length
  let p1 := runPairs (distIdx distM photos) T (List.range n) (allPairs n)
  ((groupLoop p1 [] (List.range n)).2).map (fun g => g.2)

/-! ### Semantic notions for the union-find proofs -/

/-- Well-formedness of a union-find parent list of size `n`: right length,
in-range parents, and every chain reaches a root (acyclicity).  This is
the invariant under which the source's recursive `find` terminates. -/
structure WB (n : Nat) (p : List Nat) : Prop where
  len : p.length = n
  bdd : ∀ i, i < n → getP p i < n
  reach : ∀ i, i < n → ∃ k, isRootP p (iterP p k i)

/-- `r` is the root reached from `i` by following parent links. -/
def Root (p : List Nat) (i r : Nat) : Prop :=
  isRootP p r ∧ ∃ k, iterP p k i = r

/-- The symmetric edge relation induced by processing the pair list `L`:
a union was performed between `a` and `b`. -/
def edgeRel (d : Nat → Nat → ℚ) (T : ℚ) (L : List (Nat × Nat)) (a b : Nat) : Prop :=
  ((a, b) ∈ L ∧ d a b ≤ T) ∨ ((b, a) ∈ L ∧ d b a ≤ T)

/-- Two observation indices are within the clustering threshold: the hop
relation of the spec's connecting chains. -/
def closeRel (distM : ℚ × ℚ → ℚ × ℚ → ℚ) (photos : List PhotoMeta) (T : ℚ)
    (a b : Nat) : Prop :=
  a < photos.length ∧ b < photos.length ∧ distIdx distM photos a b ≤ T

/-- Invariant of the grouping loop: every group member was already
processed and sits under its root key, keys are distinct, every processed
index is in some group, and group membership counts agree with the
processed list. -/
def GInv (rootFn : Nat → Nat) (processed : List Nat)
    (groups : List (Nat × List Nat)) : Prop :=
  (∀ g ∈ groups, ∀ x ∈ g.2, x ∈ processed ∧ rootFn x = g.1) ∧
  (groups.map (fun g => g.1)).Nodup ∧
  (∀ x ∈ processed, ∃ g ∈ groups, x ∈ g.2) ∧
  (∀ x, ((groups.map (fun g => g.2)).flatten).count x = processed.count x)

/-! ### Cluster record construction (`main` in `cluster.ts`) -/

/-- JavaScript `Math.round(x * 100) / 100` (round half toward positive
infinity), on exact rationals. -/
def round2 (x : ℚ) : ℚ := ((⌊x * 100 + 1 / 2⌋ : ℤ) : ℚ) / 100

/-- `photos[i]`; the source only indexes in range. -/
def getPh (photos : List PhotoMeta) (i : Nat) : PhotoMeta :=
  (photos.get? i).getD default

/-- A member entry of a cluster record (`photos` array element of
`clusters.json`). -/
structure ClusterPhoto where
  filename : String
  lat : ℚ
  lon : ℚ
  timestamp : String
  distance_from_center_m : ℚ
deriving DecidableEq, Inhabited

/-- A cluster record as written to `clusters.json`. -/
structure ClusterRec where
  cluster_id : String
  centerLat : ℚ
  centerLon : ℚ
  radius_m : ℚ
  photos : List ClusterPhoto
deriving DecidableEq, Inhabited

/-- The per-cluster mapping in `main` of `cluster.ts`: arithmetic-mean
center, max-distance radius (rounded to 2 decimals), geohash-derived id
(`geohash6` abstracts `ngeohash.encode(lat, lon, 6)`), and enriched member
records.  The source computes each member distance once and both folds it
into `radiusM` and rounds it into the member record; as `distM` is pure we
write the same value twice. -/
def mkCluster (distM : ℚ × ℚ → ℚ × ℚ → ℚ) (geohash6 : ℚ → ℚ → String)
    (photos : List PhotoMeta) (indices : List Nat) : ClusterRec :=
  let cps := indices.map (getPh photos)
  let centerLat := (cps.map (fun p => p.lat)).foldl (· + ·) 0 / (cps.length : ℚ)
  let centerLon := (cps.map (fun p => p.lon)).foldl (· + ·) 0 / (cps.length : ℚ)
  let ds := cps.map (fun p => distM (centerLon, centerLat) (p.lon, p.lat))
  let radiusM := ds.foldl max 0
  { cluster_id := "cluster_" ++ geohash6 centerLat centerLon
    centerLat := centerLat
    centerLon := centerLon
    radius_m := round2 radiusM
    photos := cps.map (fun p =>
      { filename := p.filename, lat := p.lat, lon := p.lon, timestamp := p.timestamp
        distance_from_center_m := round2 (distM (centerLon, centerLat) (p.lon, p.lat)) }) }

/-- Fatal error of the Cluster Engine (`EmptyInputError` in the spec;
`process.exit(1)` after "No photos found" in the source). -/
inductive ClusterError where
  | emptyInput
deriving DecidableEq

/-- The Cluster Engine stage (`main` in `cluster.ts`): fail when zero
usable observations arrive, otherwise cluster and build records. -/
def clusterMain (distM : ℚ × ℚ → ℚ × ℚ → ℚ) (geohash6 : ℚ → ℚ → String)
    (photos : List PhotoMeta) (T : ℚ) : Except ClusterError (List ClusterRec) :=
  if photos.length = 0 then Except.error ClusterError.emptyInput
  else Except.ok ((singleLinkageCluster distM photos T).map (mkCluster distM geohash6 photos))

/-! ### The Intersection Matcher (`enrich.ts`)

`enrich.ts` reads `clusters.json` (our `ClusterRec` list) and the
LineString features of `trails.json`.  The great-circle point-to-segment
distance used inside turf's `pointToLineDistance` is abstracted as the
oracle `pSeg pt segStart segEnd`; turf takes the minimum of it over the
consecutive coordinate pairs of the line, which is modelled exactly. -/

/-- Per-trail properties (`TrailProps` in `enrich.ts`); every field is
optional on the wire. -/
structure TrailProps where
  name : Option String
  snowshoe : Option Bool
  nordic_ski : Option Bool
  winter_fat_bike : Option Bool
  summer_mtb : Option Bool
deriving DecidableEq, Inhabited

/-- A LineString trail feature (`TrailFeature` in `enrich.ts`); `coords`
are `(lon, lat)` pairs. -/
structure TrailFeature where
  props : TrailProps
  coords : List (ℚ × ℚ)
deriving DecidableEq, Inhabited

/-- The distances from `pt` to each consecutive segment of `coords`. -/
def segDists (pSeg : ℚ × ℚ → ℚ × ℚ → ℚ × ℚ → ℚ) (pt : ℚ × ℚ)
    (coords : List (ℚ × ℚ)) : List ℚ :=
  (coords.zip coords.tail).map (fun ab => pSeg pt ab.1 ab.2)

/-- Turf's `pointToLineDistance`: minimum over the segments of the line
(only ever invoked on lines with at least one segment). -/
def pointToLineDistance (pSeg : ℚ × ℚ → ℚ × ℚ → ℚ × ℚ → ℚ) (pt : ℚ × ℚ)
    (coords : List (ℚ × ℚ)) : ℚ :=
  match segDists pSeg pt coords with
  | [] => 0
  | d :: ds => ds.foldl min d

/-- The matching loop body of `enrich.ts` for one cluster: skip trails
with fewer than 2 coordinates, keep those whose line distance from the
cluster center is within `radius_m + intersection_buffer_m`. -/
def matchedTrails (pSeg : ℚ × ℚ → ℚ × ℚ → ℚ × ℚ → ℚ) (trails : List TrailFeature)
    (c : ClusterRec) (bufCfg : ℚ) : List TrailFeature :=
  trails.filter (fun t =>
    decide (2 ≤ t.coords.length) &&
    decide (pointToLineDistance pSeg (c.centerLon, c.centerLat) t.coords
              ≤ c.radius_m + bufCfg))

/-- JavaScript `t.properties?.name || "Unknown"`: an absent or empty
(falsy) name becomes "Unknown". -/
def nameOr (o : Option String) : String :=
  match o with
  | none => "Unknown"
  | some s => if s = "" then "Unknown" else s

/-- The output record of the Matcher (the GeoJSON feature properties /
CSV row of `enrich.ts`). -/
structure Intersection where
  cluster_id : String
  trail_count : Nat
  trail_names : List String
  snowshoe : Bool
  nordic_ski : Bool
  winter_fat_bike : Bool
  summer_mtb : Bool
  lat : ℚ
  lon : ℚ
  radius_m : ℚ
  photos : List String
deriving DecidableEq, Inhabited

/-- Per-cluster aggregation of `enrich.ts`: names (with "Unknown"
substitution then a falsy filter), activity flags via `.some(flag ===
true)`, count, and copied cluster fields. -/
def mkIntersection (pSeg : ℚ × ℚ → ℚ × ℚ → ℚ × ℚ → ℚ) (trails : List TrailFeature)
    (bufCfg : ℚ) (c : ClusterRec) : Intersection :=
  let intersecting := matchedTrails pSeg trails c bufCfg
  { cluster_id := c.cluster_id
    trail_count := intersecting.length
    trail_names := (intersecting.map (fun t => nameOr t.props.name)).filter (fun s => s ≠ "")
    snowshoe := intersecting.any (fun t => t.props.snowshoe == some true)
    nordic_ski := intersecting.any (fun t => t.props.nordic_ski == some true)
    winter_fat_bike := intersecting.any (fun t => t.props.winter_fat_bike == some true)
    summer_mtb := intersecting.any (fun t => t.props.summer_mtb == some true)
    lat := c.centerLat
    lon := c.centerLon
    radius_m := c.radius_m
    photos := c.photos.map (fun p => p.filename) }

/-- The non-fatal warning emitted for a zero-match cluster
(`console.warn` in `enrich.ts`). -/
def warnOf (pSeg : ℚ × ℚ → ℚ × ℚ → ℚ × ℚ → ℚ) (trails : List TrailFeature)
    (bufCfg : ℚ) (c : ClusterRec) : Option String :=
  if (matchedTrails pSeg trails c bufCfg).length = 0 then
    some ("Warning: cluster " ++ c.cluster_id ++ " has no intersecting trails")
  else none

/-- Descending comparison on `trail_count`, the order induced by the
source comparator `(a, b) => b.trail_count - a.trail_count`. -/
def descTC (a b : Intersection) : Prop := b.trail_count ≤ a.trail_count

instance : DecidableRel descTC := by
  unfold descTC; infer_instance

instance : IsTotal Intersection descTC :=
  ⟨fun a b => Nat.le_total b.trail_count a.trail_count⟩

instance : IsTrans Intersection descTC :=
  ⟨fun a b c h1 h2 => Nat.le_trans h2 h1⟩

/-- The final sort of `enrich.ts`.  ECMA-262 specifies
`Array.prototype.sort` to be stable, and a stable sort by a total
preorder has a unique result, so the stable insertion sort
`List.insertionSort` is extensionally the source's sort. -/
def sortByTrailCountDesc (l : List Intersection) : List Intersection :=
  List.insertionSort descTC l

/-- The unsorted, input-cluster-ordered record list built by the main
loop of `enrich.ts`. -/
def enrichRecords (pSeg : ℚ × ℚ → ℚ × ℚ → ℚ × ℚ → ℚ) (clusters : List ClusterRec)
    (trails : List TrailFeature) (bufCfg : ℚ) : List Intersection :=
  clusters.map (mkIntersection pSeg trails bufCfg)

/-- The Matcher stage (`main` in `enrich.ts`): abort fatally when no trail
has usable geometry, otherwise emit one sorted record per cluster plus the
accumulated non-fatal warnings.  (The upstream read failures for missing
input files are external I/O; the geometry check is the in-core fatal
path.) -/
def enrichMain (pSeg : ℚ × ℚ → ℚ × ℚ → ℚ × ℚ → ℚ) (clusters : List ClusterRec)
    (trails : List TrailFeature) (bufCfg : ℚ) :
    Except String (List Intersection × List String) :=
  if (trails.filter (fun t => decide (2 ≤ t.coords.length))).length = 0 then
    Except.error "No trail geometry found. All trails have empty coordinates."
  else
    Except.ok (sortByTrailCountDesc (enrichRecords pSeg clusters trails bufCfg),
      clusters.filterMap (warnOf pSeg trails bufCfg))

/-! ### Concrete sample inputs used to exercise the definitions -/

/-- Degenerate distance oracle (all points coincide); a legitimate
instantiation of the abstracted metric for concrete evaluation. -/
def distM0 : ℚ × ℚ → ℚ × ℚ → ℚ := fun _ _ => 0

/-- Degenerate segment-distance oracle for concrete evaluation. -/
def pSeg0 : ℚ × ℚ → ℚ × ℚ → ℚ × ℚ → ℚ := fun _ _ _ => 0

/-- Trivial geohash stub for concrete evaluation. -/
def geohash0 : ℚ → ℚ → String := fun _ _ => "u001"

/-- Segment-distance oracle placing every trail far away (beyond any
buffer used in the samples). -/
def pSegFar : ℚ × ℚ → ℚ × ℚ → ℚ × ℚ → ℚ := fun _ _ _ => 100

/-- A degenerate trail record: a single coordinate, no properties. -/
def trailDeg : TrailFeature := ⟨⟨none, none, none, none, none⟩, [(0, 0)]⟩

/-- A well-formed two-point trail. -/
def trailGood : TrailFeature :=
  ⟨⟨some "Main Trail", some true, none, none, none⟩, [(0, 0), (1, 1)]⟩

/-- A sample cluster record. -/
def clusterC0 : ClusterRec := ⟨"cluster_u001", 0, 0, 0, []⟩

/-- Two sample photo observations at the same location. -/
def photosTwo : List PhotoMeta := [⟨"a.jpg", 0, 0, ""⟩, ⟨"b.jpg", 0, 0, ""⟩]

/-! ## Proofs

### Parent chains -/

theorem iterP_add (p : List Nat) (k m i : Nat) :
    iterP p (k + m) i = iterP p m (iterP p k i) := by
  induction k generalizing i with
  | zero => simp [iterP]
  | succ k ih =>
    have h : k + 1 + m = (k + m) + 1 := by omega
    rw [h]
    show iterP p (k + m) (getP p i) = _
    rw [ih]
    rfl

theorem root_stable (p : List Nat) {r : Nat} (h : isRootP p r) :
    ∀ m, iterP p m r = r := by
  intro m
  induction m with
  | zero => rfl
  | succ m ih =>
    show iterP p m (getP p r) = r
    rw [h]
    exact ih

theorem Root_unique {p : List Nat} {i r r' : Nat} (h : Root p i r) (h' : Root p i r') :
    r = r' := by
  obtain ⟨hr, k, hk⟩ := h
  obtain ⟨hr', k', hk'⟩ := h'
  rcases le_total k k' with hle | hle
  · have he : k' = k + (k' - k) := by omega
    rw [he, iterP_add, hk, root_stable p hr] at hk'
    exact hk'
  · have he : k = k' + (k - k') := by omega
    rw [he, iterP_add, hk', root_stable p hr'] at hk
    exact hk.symm

theorem iterP_lt {n : Nat} {p : List Nat} (h : WB n p) {i : Nat} (hi : i < n) :
    ∀ k, iterP p k i < n := by
  intro k
  induction k generalizing i with
  | zero => exact hi
  | succ k ih =>
    show iterP p k (getP p i) < n
    exact ih (h.bdd i hi)

theorem getP_out {p : List Nat} {i : Nat} (h : p.length ≤ i) : getP p i = i := by
  unfold getP
  exact List.getD_eq_default _ _ h

theorem getP_set {p : List Nat} {i : Nat} (hi : i < p.length) (v x : Nat) :
    getP (p.set i v) x = if x = i then v else getP p x := by
  by_cases hx : x = i
  · subst hx
    unfold getP
    rw [List.getD_eq_getElem?_getD, List.getElem?_set_self, if_pos rfl]
    · simp [Option.getD]
    · exact hi
  · unfold getP
    rw [if_neg hx, List.getD_eq_getElem?_getD, List.getD_eq_getElem?_getD,
      List.getElem?_set_ne (fun h => hx h.symm)]

theorem rootA_self {p : List Nat} {i : Nat} (h : getP p i = i) :
    ∀ fuel, rootA fuel p i = i := by
  intro fuel
  cases fuel with
  | zero => rfl
  | succ fuel => simp [rootA, h]

theorem rootA_correct {p : List Nat} :
    ∀ (fuel k i r : Nat), iterP p k i = r → isRootP p r → k ≤ fuel →
      rootA fuel p i = r := by
  intro fuel
  induction fuel with
  | zero =>
    intro k i r hk hr hle
    have h0 : k = 0 := by omega
    subst h0
    exact hk
  | succ fuel ih =>
    intro k i r hk hr hle
    by_cases hroot : getP p i = i
    · have hst : iterP p k i = i := root_stable p hroot k
      rw [hst] at hk
      rw [rootA_self hroot]
      exact hk
    · cases k with
      | zero =>
        have hik : i = r := hk
        rw [← hik] at hr
        exact absurd hr hroot
      | succ k =>
        show (if getP p i = i then i else rootA fuel p (getP p i)) = r
        rw [if_neg hroot]
        exact ih k (getP p i) r hk hr (by omega)

theorem findA_self {p : List Nat} {i : Nat} (h : getP p i = i) :
    ∀ fuel, findA fuel p i = (p, i) := by
  intro fuel
  cases fuel with
  | zero => rfl
  | succ fuel => simp [findA, h]

theorem period_root_contra {p : List Nat} {i s t k : Nat} (hst : s < t) (htk : t ≤ k)
    (heq : iterP p s i = iterP p t i) (hk : isRootP p (iterP p k i))
    (hmin : ∀ m, m < k → ¬ isRootP p (iterP p m i)) : False := by
  set d := t - s with hd
  have hd1 : 1 ≤ d := by omega
  have hper : ∀ m, iterP p (s + m * d) i = iterP p s i := by
    intro m
    induction m with
    | zero => simp
    | succ m ih =>
      have he : s + (m + 1) * d = (s + m * d) + d := by ring
      rw [he, iterP_add, ih, ← iterP_add]
      have he2 : s + d = t := by omega
      rw [he2, ← heq]
  have hbig : k ≤ s + k * d := by
    calc k ≤ k * d := Nat.le_mul_of_pos_right k (by omega)
    _ ≤ s + k * d := by omega
  have he3 : s + k * d = k + (s + k * d - k) := by omega
  have hkk : iterP p (s + k * d) i = iterP p k i := by
    rw [he3, iterP_add, root_stable p hk]
  have hsroot : isRootP p (iterP p s i) := by
    have h1 : iterP p s i = iterP p k i := by rw [← hper k, hkk]
    rw [h1]
    exact hk
  exact hmin s (by omega) hsroot

theorem reach_bound {n : Nat} {p : List Nat} (h : WB n p) {i : Nat} (hi : i < n) :
    ∃ k, k < n ∧ isRootP p (iterP p k i) := by
  have hex : ∃ k, isRootP p (iterP p k i) := h.reach i hi
  set k := Nat.find hex with hkdef
  have hk : isRootP p (iterP p k i) := Nat.find_spec hex
  have hmin : ∀ m, m < k → ¬ isRootP p (iterP p m i) := fun m hm => Nat.find_min hex hm
  refine ⟨k, ?_, hk⟩
  by_contra hge
  push_neg at hge
  have hmaps : ∀ m ∈ Finset.range (k + 1), iterP p m i ∈ Finset.range n :=
    fun m _ => Finset.mem_range.mpr (iterP_lt h hi m)
  have hcard : (Finset.range n).card < (Finset.range (k + 1)).card := by
    simp only [Finset.card_range]
    omega
  obtain ⟨s, hs, t, ht, hst, heq⟩ :=
    Finset.exists_ne_map_eq_of_card_lt_of_maps_to hcard hmaps
  rw [Finset.mem_range] at hs ht
  -- normalize so that s < t
  rcases Nat.lt_or_ge s t with hlt | hge2
  · exact period_root_contra hlt (by omega) heq hk hmin
  · have hlt : t < s := by omega
    exact period_root_contra hlt (by omega) heq.symm hk hmin

theorem rootD_root {n : Nat} {p : List Nat} (h : WB n p) (i : Nat) :
    Root p i (rootD p i) := by
  by_cases hi : i < n
  · obtain ⟨k, hk, hroot⟩ := reach_bound h hi
    have hc := @rootA_correct p p.length k i _ rfl hroot (by rw [h.len]; omega)
    rw [rootD, hc]
    exact ⟨hroot, k, rfl⟩
  · have hroot : getP p i = i := getP_out (by rw [h.len]; omega)
    rw [rootD, rootA_self hroot]
    exact ⟨hroot, 0, rfl⟩

theorem Root_rootD {n : Nat} {p : List Nat} (h : WB n p) {i r : Nat} (hr : Root p i r) :
    r = rootD p i :=
  Root_unique hr (rootD_root h i)

theorem rootD_lt {n : Nat} {p : List Nat} (h : WB n p) {i : Nat} (hi : i < n) :
    rootD p i < n := by
  obtain ⟨hr, k, hk⟩ := rootD_root h i
  rw [← hk]
  exact iterP_lt h hi k

theorem Root_step {p : List Nat} {i r : Nat} (h : Root p (getP p i) r) : Root p i r := by
  obtain ⟨hr, k, hk⟩ := h
  exact ⟨hr, k + 1, hk⟩

theorem isRootP_set_of_root {p : List Nat} {i r : Nat} (hir : Root p i r)
    (hiL : i < p.length) {s : Nat} (hs : isRootP p s) : isRootP (p.set i r) s := by
  unfold isRootP
  rw [getP_set hiL]
  by_cases hsi : s = i
  · subst hsi
    have hrs : r = s := Root_unique hir ⟨hs, 0, rfl⟩
    rw [if_pos rfl, hrs]
  · rw [if_neg hsi]
    exact hs

theorem Root_set_of_root {p : List Nat} {i r : Nat} (hir : Root p i r) (hiL : i < p.length) :
    ∀ (k x s : Nat), iterP p k x = s → isRootP p s → Root (p.set i r) x s := by
  intro k
  induction k with
  | zero =>
    intro x s hxs hs
    have hx : x = s := hxs
    subst hx
    exact ⟨isRootP_set_of_root hir hiL hs, 0, rfl⟩
  | succ k ih =>
    intro x s hxs hs
    by_cases hx : x = i
    · have hRis : Root p i s := ⟨hs, k + 1, hx ▸ hxs⟩
      have hsr : s = r := Root_unique hRis hir
      subst hsr
      apply Root_step
      have hgp : getP (p.set i s) x = s := by
        rw [getP_set hiL, if_pos hx]
      rw [hgp]
      exact ⟨isRootP_set_of_root hir hiL hir.1, 0, rfl⟩
    · have hstep : iterP p k (getP p x) = s := hxs
      have hrec := ih (getP p x) s hstep hs
      apply Root_step
      have hgp : getP (p.set i r) x = getP p x := by
        rw [getP_set hiL, if_neg hx]
      rw [hgp]
      exact hrec

theorem rootD_set_of_root {n : Nat} {p : List Nat} (h : WB n p) {i r : Nat}
    (hir : Root p i r) (hi : i < n) :
    WB n (p.set i r) ∧ ∀ x, rootD (p.set i r) x = rootD p x := by
  have hiL : i < p.length := by rw [h.len]; exact hi
  have hfwd : ∀ x s, Root p x s → Root (p.set i r) x s := by
    intro x s hxs
    obtain ⟨hs, k, hk⟩ := hxs
    exact Root_set_of_root hir hiL k x s hk hs
  have hrn : r < n := by
    obtain ⟨hr, k, hk⟩ := hir
    rw [← hk]
    exact iterP_lt h hi k
  have hWB2 : WB n (p.set i r) := by
    refine ⟨by rw [List.length_set, h.len], ?_, ?_⟩
    · intro x hx
      rw [getP_set hiL]
      by_cases hxi : x = i
      · rw [if_pos hxi]; exact hrn
      · rw [if_neg hxi]; exact h.bdd x hx
    · intro x hx
      obtain ⟨hr2, k, hk⟩ := hfwd x (rootD p x) (rootD_root h x)
      exact ⟨k, hk ▸ hr2⟩
  refine ⟨hWB2, fun x => ?_⟩
  exact (Root_rootD hWB2 (hfwd x (rootD p x) (rootD_root h x))).symm

theorem Root_setU {p : List Nat} {a b : Nat} (ha : isRootP p a) (hb : isRootP p b)
    (hab : a ≠ b) (haL : a < p.length) :
    ∀ (k x s : Nat), iterP p k x = s → isRootP p s →
      Root (p.set a b) x (if s = a then b else s) := by
  have hbroot : isRootP (p.set a b) b := by
    unfold isRootP
    rw [getP_set haL, if_neg (fun hc => hab hc.symm)]
    exact hb
  have haRb : Root (p.set a b) a b := by
    apply Root_step
    have hgp : getP (p.set a b) a = b := by rw [getP_set haL, if_pos rfl]
    rw [hgp]
    exact ⟨hbroot, 0, rfl⟩
  intro k
  induction k with
  | zero =>
    intro x s hxs hs
    have hx : x = s := hxs
    subst hx
    by_cases hsa : x = a
    · rw [if_pos hsa, hsa]
      exact haRb
    · rw [if_neg hsa]
      refine ⟨?_, 0, rfl⟩
      unfold isRootP
      rw [getP_set haL, if_neg hsa]
      exact hs
  | succ k ih =>
    intro x s hxs hs
    by_cases hxa : x = a
    · have hst : iterP p (k + 1) x = x := by
        rw [hxa]
        exact root_stable p ha (k + 1)
      have hsx : s = x := by rw [← hxs, hst]
      rw [hsx, if_pos hxa, hxa]
      exact haRb
    · have hstep : iterP p k (getP p x) = s := hxs
      have hrec := ih (getP p x) s hstep hs
      apply Root_step
      have hgp : getP (p.set a b) x = getP p x := by
        rw [getP_set haL, if_neg hxa]
      rw [hgp]
      exact hrec

theorem rootD_setU {n : Nat} {p : List Nat} (h : WB n p) {a b : Nat}
    (ha : isRootP p a) (hb : isRootP p b) (hab : a ≠ b) (han : a < n) (hbn : b < n) :
    WB n (p.set a b) ∧
      ∀ x, rootD (p.set a b) x = if rootD p x = a then b else rootD p x := by
  have haL : a < p.length := by rw [h.len]; exact han
  have hfwd : ∀ x, Root (p.set a b) x (if rootD p x = a then b else rootD p x) := by
    intro x
    obtain ⟨hr, k, hk⟩ := rootD_root h x
    exact Root_setU ha hb hab haL k x (rootD p x) hk hr
  have hWB2 : WB n (p.set a b) := by
    refine ⟨by rw [List.length_set, h.len], ?_, ?_⟩
    · intro x hx
      rw [getP_set haL]
      by_cases hxa : x = a
      · rw [if_pos hxa]; exact hbn
      · rw [if_neg hxa]; exact h.bdd x hx
    · intro x hx
      obtain ⟨hr2, k, hk⟩ := hfwd x
      exact ⟨k, hk ▸ hr2⟩
  refine ⟨hWB2, fun x => ?_⟩
  exact (Root_rootD hWB2 (hfwd x)).symm

theorem findA_succ_nroot {fuel : Nat} {p : List Nat} {i : Nat} (h : ¬ getP p i = i) :
    findA (fuel + 1) p i =
      ((findA fuel p (getP p i)).1.set i (findA fuel p (getP p i)).2,
        (findA fuel p (getP p i)).2) := by
  simp [findA, h]

theorem findA_go {n : Nat} :
    ∀ (fuel : Nat) (p : List Nat) (i k r : Nat), WB n p → i < n →
      iterP p k i = r → isRootP p r → k ≤ fuel →
      (findA fuel p i).2 = r ∧ WB n (findA fuel p i).1 ∧
        ∀ x, rootD (findA fuel p i).1 x = rootD p x := by
  intro fuel
  induction fuel with
  | zero =>
    intro p i k r hWB hi hk hr hle
    have h0 : k = 0 := by omega
    subst h0
    have hik : i = r := hk
    exact ⟨hik, hWB, fun x => rfl⟩
  | succ fuel ih =>
    intro p i k r hWB hi hk hr hle
    by_cases hroot : getP p i = i
    · rw [findA_self hroot]
      have hst : iterP p k i = i := root_stable p hroot k
      rw [hst] at hk
      exact ⟨hk, hWB, fun x => rfl⟩
    · cases k with
      | zero =>
        have hik : i = r := hk
        rw [← hik] at hr
        exact absurd hr hroot
      | succ k =>
        have hk' : iterP p k (getP p i) = r := hk
        have hgi : getP p i < n := hWB.bdd i hi
        obtain ⟨h2, hWB2, hroots2⟩ := ih p (getP p i) k r hWB hgi hk' hr (by omega)
        have hRpir : Root p i r := ⟨hr, k + 1, hk⟩
        have hRi : Root (findA fuel p (getP p i)).1 i r := by
          have hval : rootD (findA fuel p (getP p i)).1 i = r := by
            rw [hroots2 i]
            exact (Root_rootD hWB hRpir).symm
          have := rootD_root hWB2 i
          rw [hval] at this
          exact this
        obtain ⟨hWB3, hroots3⟩ := rootD_set_of_root hWB2 hRi hi
        rw [findA_succ_nroot hroot]
        refine ⟨h2, ?_, ?_⟩
        · show WB n ((findA fuel p (getP p i)).1.set i (findA fuel p (getP p i)).2)
          rw [h2]
          exact hWB3
        · intro x
          show rootD ((findA fuel p (getP p i)).1.set i (findA fuel p (getP p i)).2) x
            = rootD p x
          rw [h2, hroots3 x, hroots2 x]

theorem findD_spec {n : Nat} {p : List Nat} (h : WB n p) (i : Nat) :
    (findD p i).2 = rootD p i ∧ WB n (findD p i).1 ∧
      ∀ x, rootD (findD p i).1 x = rootD p x := by
  by_cases hi : i < n
  · obtain ⟨k, hk, hroot⟩ := reach_bound h hi
    have hval : iterP p k i = rootD p i := Root_rootD h ⟨hroot, k, rfl⟩
    have := @findA_go n p.length p i k (rootD p i) h hi hval
      (hval ▸ hroot) (by rw [h.len]; omega)
    exact this
  · have hroot : getP p i = i := getP_out (by rw [h.len]; omega)
    rw [findD, findA_self hroot]
    refine ⟨?_, h, fun x => rfl⟩
    exact (rootA_self hroot p.length).symm

theorem unionF_spec {n : Nat} {p : List Nat} (h : WB n p) {i j : Nat}
    (hi : i < n) (hj : j < n) :
    WB n (unionF p i j) ∧
      ∀ x, rootD (unionF p i j) x =
        if rootD p x = rootD p i then rootD p j else rootD p x := by
  obtain ⟨hfi2, hWB1, hroots1⟩ := findD_spec h i
  obtain ⟨hfj2, hWB2, hroots2⟩ := findD_spec hWB1 j
  have ha : (findD p i).2 = rootD p i := hfi2
  have hb : (findD (findD p i).1 j).2 = rootD p j := by rw [hfj2, hroots1]
  unfold unionF
  by_cases hab : (findD p i).2 ≠ (findD (findD p i).1 j).2
  · rw [if_pos hab]
    have habr : rootD p i ≠ rootD p j := by rw [← ha, ← hb]; exact hab
    -- the two roots are roots of the state after both finds
    have hA : isRootP (findD (findD p i).1 j).1 (rootD p i) := by
      have hv : rootD (findD (findD p i).1 j).1 (rootD p i) = rootD p i := by
        rw [hroots2, hroots1]
        exact (Root_rootD h ⟨(rootD_root h i).1, 0, rfl⟩).symm
      have := rootD_root hWB2 (rootD p i)
      rw [hv] at this
      exact this.1
    have hB : isRootP (findD (findD p i).1 j).1 (rootD p j) := by
      have hv : rootD (findD (findD p i).1 j).1 (rootD p j) = rootD p j := by
        rw [hroots2, hroots1]
        exact (Root_rootD h ⟨(rootD_root h j).1, 0, rfl⟩).symm
      have := rootD_root hWB2 (rootD p j)
      rw [hv] at this
      exact this.1
    rw [ha, hb]
    obtain ⟨hWB3, hroots3⟩ :=
      rootD_setU hWB2 hA hB habr (rootD_lt h hi) (rootD_lt h hj)
    refine ⟨hWB3, fun x => ?_⟩
    rw [hroots3 x, hroots2 x, hroots1 x]
  · rw [if_neg hab]
    push_neg at hab
    have habr : rootD p i = rootD p j := by rw [← ha, ← hb]; exact hab
    refine ⟨hWB2, fun x => ?_⟩
    rw [hroots2 x, hroots1 x]
    by_cases hx : rootD p x = rootD p i
    · rw [if_pos hx, hx, habr]
    · rw [if_neg hx]

/-! ### Reflexive-transitive closure utilities -/

theorem rtg_mono_of {α : Type} {r s : α → α → Prop}
    (h : ∀ a b, r a b → Relation.ReflTransGen s a b) {x y : α} :
    Relation.ReflTransGen r x y → Relation.ReflTransGen s x y := by
  intro hxy
  induction hxy with
  | refl => exact Relation.ReflTransGen.refl
  | tail _ h2 ih => exact ih.trans (h _ _ h2)

theorem rtg_congr {α : Type} {r s : α → α → Prop}
    (hrs : ∀ a b, r a b → Relation.ReflTransGen s a b)
    (hsr : ∀ a b, s a b → Relation.ReflTransGen r a b) (x y : α) :
    Relation.ReflTransGen r x y ↔ Relation.ReflTransGen s x y :=
  ⟨rtg_mono_of hrs, rtg_mono_of hsr⟩

theorem rtg_eq_fun {α β : Type} (g : α → β) (x y : α) :
    Relation.ReflTransGen (fun a b => g a = g b) x y ↔ g x = g y := by
  constructor
  · intro h
    induction h with
    | refl => rfl
    | tail _ h2 ih => exact ih.trans h2
  · intro h
    exact Relation.ReflTransGen.single h

/-! ### The pair loop computes the transitive closure of the edges -/

theorem runPairs_spec (d : Nat → Nat → ℚ) (T : ℚ) (n : Nat) :
    ∀ (L : List (Nat × Nat)) (p : List Nat), WB n p →
      (∀ pr ∈ L, pr.1 < n ∧ pr.2 < n) →
      WB n (runPairs d T p L) ∧
      ∀ x y, rootD (runPairs d T p L) x = rootD (runPairs d T p L) y ↔
        Relation.ReflTransGen
          (fun a b => rootD p a = rootD p b ∨ edgeRel d T L a b) x y := by
  intro L
  induction L with
  | nil =>
    intro p hWB _
    refine ⟨hWB, fun x y => ?_⟩
    have hrw : (fun a b => rootD p a = rootD p b ∨ edgeRel d T [] a b)
        = fun a b => rootD p a = rootD p b := by
      funext a b
      simp [edgeRel]
    rw [runPairs, List.foldl_nil, hrw]
    exact (rtg_eq_fun (rootD p) x y).symm
  | cons pr L ih =>
    intro p hWB hmem
    obtain ⟨i, j⟩ := pr
    obtain ⟨hi, hj⟩ := hmem (i, j) (List.mem_cons_self _ _)
    have hmem' : ∀ q ∈ L, q.1 < n ∧ q.2 < n := fun q hq => hmem q (List.mem_cons_of_mem _ hq)
    have hfold : runPairs d T p ((i, j) :: L) = runPairs d T (stepPair d T p (i, j)) L := by
      rw [runPairs, List.foldl_cons, runPairs]
    by_cases hd : d i j ≤ T
    · have hstep : stepPair d T p (i, j) = unionF p i j := by
        simp [stepPair, hd]
      obtain ⟨hWBu, hrootsu⟩ := unionF_spec hWB hi hj
      obtain ⟨hWBf, hifff⟩ := ih (unionF p i j) hWBu hmem'
      rw [hfold, hstep]
      refine ⟨hWBf, fun x y => ?_⟩
      rw [hifff x y]
      apply rtg_congr
      · rintro a b (hab | hab)
        · rw [hrootsu a, hrootsu b] at hab
          by_cases h1 : rootD p a = rootD p i <;> by_cases h2 : rootD p b = rootD p i
          · exact Relation.ReflTransGen.single (Or.inl (h1.trans h2.symm))
          · rw [if_pos h1, if_neg h2] at hab
            refine Relation.ReflTransGen.trans
              (Relation.ReflTransGen.single (Or.inl h1)) ?_
            refine Relation.ReflTransGen.trans
              (Relation.ReflTransGen.single (Or.inr (Or.inl ⟨List.mem_cons_self _ _, hd⟩)))
              (Relation.ReflTransGen.single (Or.inl hab))
          · rw [if_neg h1, if_pos h2] at hab
            refine Relation.ReflTransGen.trans
              (Relation.ReflTransGen.single (Or.inl hab)) ?_
            refine Relation.ReflTransGen.trans
              (Relation.ReflTransGen.single (Or.inr (Or.inr ⟨List.mem_cons_self _ _, hd⟩)))
              (Relation.ReflTransGen.single (Or.inl h2.symm))
          · rw [if_neg h1, if_neg h2] at hab
            exact Relation.ReflTransGen.single (Or.inl hab)
        · refine Relation.ReflTransGen.single (Or.inr ?_)
          rcases hab with ⟨hm, hle⟩ | ⟨hm, hle⟩
          · exact Or.inl ⟨List.mem_cons_of_mem _ hm, hle⟩
          · exact Or.inr ⟨List.mem_cons_of_mem _ hm, hle⟩
      · rintro a b (hab | hab)
        · refine Relation.ReflTransGen.single (Or.inl ?_)
          rw [hrootsu a, hrootsu b, hab]
        · rcases hab with ⟨hm, hle⟩ | ⟨hm, hle⟩
          · rcases List.mem_cons.mp hm with heq | hm2
            · have ha : a = i := congrArg Prod.fst heq
              have hb : b = j := congrArg Prod.snd heq
              refine Relation.ReflTransGen.single (Or.inl ?_)
              rw [hrootsu a, hrootsu b, ha, hb]
              simp
            · exact Relation.ReflTransGen.single (Or.inr (Or.inl ⟨hm2, hle⟩))
          · rcases List.mem_cons.mp hm with heq | hm2
            · have hb : b = i := congrArg Prod.fst heq
              have ha : a = j := congrArg Prod.snd heq
              refine Relation.ReflTransGen.single (Or.inl ?_)
              rw [hrootsu a, hrootsu b, ha, hb]
              simp
            · exact Relation.ReflTransGen.single (Or.inr (Or.inr ⟨hm2, hle⟩))
    · have hstep : stepPair d T p (i, j) = p := by
        simp [stepPair, hd]
      obtain ⟨hWBf, hifff⟩ := ih p hWB hmem'
      rw [hfold, hstep]
      refine ⟨hWBf, fun x y => ?_⟩
      rw [hifff x y]
      apply rtg_congr
      · rintro a b (hab | hab)
        · exact Relation.ReflTransGen.single (Or.inl hab)
        · rcases hab with ⟨hm, hle⟩ | ⟨hm, hle⟩
          · exact Relation.ReflTransGen.single
              (Or.inr (Or.inl ⟨List.mem_cons_of_mem _ hm, hle⟩))
          · exact Relation.ReflTransGen.single
              (Or.inr (Or.inr ⟨List.mem_cons_of_mem _ hm, hle⟩))
      · rintro a b (hab | hab)
        · exact Relation.ReflTransGen.single (Or.inl hab)
        · rcases hab with ⟨hm, hle⟩ | ⟨hm, hle⟩
          · rcases List.mem_cons.mp hm with heq | hm2
            · exfalso
              have ha : a = i := congrArg Prod.fst heq
              have hb : b = j := congrArg Prod.snd heq
              rw [ha, hb] at hle
              exact hd hle
            · exact Relation.ReflTransGen.single (Or.inr (Or.inl ⟨hm2, hle⟩))
          · rcases List.mem_cons.mp hm with heq | hm2
            · exfalso
              have hb : b = i := congrArg Prod.fst heq
              have ha : a = j := congrArg Prod.snd heq
              rw [ha, hb] at hle
              exact hd hle
            · exact Relation.ReflTransGen.single (Or.inr (Or.inr ⟨hm2, hle⟩))

/-! ### The initial parent array and the pair enumeration -/

theorem getP_range (n i : Nat) : getP (List.range n) i = i := by
  by_cases hi : i < n
  · unfold getP
    rw [List.getD_eq_getElem?_getD, List.getElem?_range hi]
    rfl
  · exact getP_out (by rw [List.length_range]; omega)

theorem WB_range (n : Nat) : WB n (List.range n) := by
  refine ⟨List.length_range n, ?_, ?_⟩
  · intro i hi
    rw [getP_range]
    exact hi
  · intro i _
    exact ⟨0, getP_range n i⟩

theorem rootD_range (n i : Nat) : rootD (List.range n) i = i :=
  rootA_self (getP_range n i) _

theorem mem_allPairs {n a b : Nat} : (a, b) ∈ allPairs n ↔ a < b ∧ b < n := by
  simp only [allPairs, List.mem_flatMap, List.mem_map, List.mem_filter, List.mem_range,
    decide_eq_true_eq]
  constructor
  · rintro ⟨i, hi, j, ⟨hj, hij⟩, heq⟩
    have ha : i = a := congrArg Prod.fst heq
    have hb : j = b := congrArg Prod.snd heq
    omega
  · rintro ⟨hab, hb⟩
    exact ⟨a, by omega, b, ⟨hb, hab⟩, rfl⟩

theorem allPairs_bounds {n : Nat} : ∀ pr ∈ allPairs n, pr.1 < n ∧ pr.2 < n := by
  rintro ⟨a, b⟩ hm
  have := mem_allPairs.mp hm
  exact ⟨by omega, by omega⟩

/-- Conversion between the processed-edge closure over `allPairs` and the
spec's chain relation `closeRel`, given symmetry of the metric. -/
theorem rtg_allPairs_close {distM : ℚ × ℚ → ℚ × ℚ → ℚ} {photos : List PhotoMeta} {T : ℚ}
    (hs : ∀ u v, distM u v = distM v u) (x y : Nat) :
    Relation.ReflTransGen
      (fun a b => rootD (List.range photos.length) a = rootD (List.range photos.length) b ∨
        edgeRel (distIdx distM photos) T (allPairs photos.length) a b) x y ↔
    Relation.ReflTransGen (closeRel distM photos T) x y := by
  apply rtg_congr
  · rintro a b (hab | hab)
    · rw [rootD_range, rootD_range] at hab
      rw [hab]
    · rcases hab with ⟨hm, hle⟩ | ⟨hm, hle⟩
      · obtain ⟨h1, h2⟩ := mem_allPairs.mp hm
        exact Relation.ReflTransGen.single ⟨by omega, h2, hle⟩
      · obtain ⟨h1, h2⟩ := mem_allPairs.mp hm
        refine Relation.ReflTransGen.single ⟨h2, by omega, ?_⟩
        rw [distIdx, hs]
        exact hle
  · rintro a b ⟨ha, hb, hle⟩
    rcases Nat.lt_trichotomy a b with hlt | heq | hgt
    · exact Relation.ReflTransGen.single (Or.inr (Or.inl ⟨mem_allPairs.mpr ⟨hlt, hb⟩, hle⟩))
    · rw [heq]
    · refine Relation.ReflTransGen.single (Or.inr (Or.inr ⟨mem_allPairs.mpr ⟨hgt, ha⟩, ?_⟩))
      rw [distIdx, hs]
      exact hle

/-! ### The grouping loop -/

theorem addToGroup_count (groups : List (Nat × List Nat)) (r i x : Nat) :
    (((addToGroup groups r i).map (fun g => g.2)).flatten).count x =
      (((groups.map (fun g => g.2)).flatten).count x) + (if i = x then 1 else 0) := by
  induction groups with
  | nil =>
    simp [addToGroup, List.count_cons, List.count_nil]
  | cons g gs ih =>
    have hc : List.count x [i] = if i = x then 1 else 0 := by
      by_cases hxi : i = x
      · subst hxi; simp
      · rw [if_neg hxi]
        exact List.count_eq_zero_of_not_mem (by simp; exact fun h => hxi h.symm)
    by_cases hg : g.1 = r
    · simp only [addToGroup, if_pos hg, List.map_cons, List.flatten_cons,
        List.count_append]
      rw [hc]
      by_cases hxi : i = x
      · rw [if_pos hxi]; omega
      · rw [if_neg hxi]; omega
    · simp only [addToGroup, if_neg hg, List.map_cons, List.flatten_cons,
        List.count_append, ih]
      by_cases hxi : i = x
      · rw [if_pos hxi]; omega
      · rw [if_neg hxi]; omega

theorem addToGroup_mem_origin (groups : List (Nat × List Nat)) (r i : Nat) :
    ∀ g ∈ addToGroup groups r i, ∀ x ∈ g.2,
      (∃ g0 ∈ groups, g0.1 = g.1 ∧ x ∈ g0.2) ∨ (x = i ∧ g.1 = r) := by
  induction groups with
  | nil =>
    intro g hg x hx
    simp [addToGroup] at hg
    subst hg
    simp at hx
    exact Or.inr ⟨hx, rfl⟩
  | cons g0 gs ih =>
    intro g hg x hx
    by_cases hk : g0.1 = r
    · rw [addToGroup, if_pos hk] at hg
      rcases List.mem_cons.mp hg with heq | hgs
      · subst heq
        simp only [List.mem_append, List.mem_singleton] at hx
        rcases hx with hx | hx
        · exact Or.inl ⟨g0, List.mem_cons_self _ _, rfl, hx⟩
        · exact Or.inr ⟨hx, hk⟩
      · exact Or.inl ⟨g, List.mem_cons_of_mem _ hgs, rfl, hx⟩
    · rw [addToGroup, if_neg hk] at hg
      rcases List.mem_cons.mp hg with heq | hgs
      · subst heq
        exact Or.inl ⟨g, List.mem_cons_self _ _, rfl, hx⟩
      · rcases ih g hgs x hx with ⟨g1, hg1, hk1, hx1⟩ | hr
        · exact Or.inl ⟨g1, List.mem_cons_of_mem _ hg1, hk1, hx1⟩
        · exact Or.inr hr

theorem addToGroup_keys (groups : List (Nat × List Nat)) (r i : Nat) :
    (addToGroup groups r i).map (fun g => g.1) =
      if r ∈ groups.map (fun g => g.1) then groups.map (fun g => g.1)
      else groups.map (fun g => g.1) ++ [r] := by
  induction groups with
  | nil => simp [addToGroup]
  | cons g0 gs ih =>
    by_cases hk : g0.1 = r
    · rw [addToGroup, if_pos hk]
      have hmem : r ∈ (g0 :: gs).map (fun g => g.1) := by
        simp [hk.symm]
      rw [if_pos hmem]
      simp
    · rw [addToGroup, if_neg hk]
      simp only [List.map_cons]
      rw [ih]
      by_cases hmem : r ∈ gs.map (fun g => g.1)
      · rw [if_pos hmem, if_pos (by simp [hmem])]
      · have hnot : r ∉ g0.1 :: gs.map (fun g => g.1) := by
          rw [List.mem_cons]
          rintro (h | h)
          · exact hk h.symm
          · exact hmem h
        rw [if_neg hmem, if_neg hnot]
        simp

theorem addToGroup_keys_nodup {groups : List (Nat × List Nat)} {r i : Nat}
    (h : (groups.map (fun g => g.1)).Nodup) :
    ((addToGroup groups r i).map (fun g => g.1)).Nodup := by
  rw [addToGroup_keys]
  by_cases hmem : r ∈ groups.map (fun g => g.1)
  · rw [if_pos hmem]
    exact h
  · rw [if_neg hmem]
    simp [List.nodup_append, h, hmem]

theorem addToGroup_self_mem (groups : List (Nat × List Nat)) (r i : Nat) :
    ∃ g ∈ addToGroup groups r i, g.1 = r ∧ i ∈ g.2 := by
  induction groups with
  | nil => exact ⟨(r, [i]), by simp [addToGroup]⟩
  | cons g0 gs ih =>
    by_cases hk : g0.1 = r
    · refine ⟨(g0.1, g0.2 ++ [i]), ?_, hk, by simp⟩
      rw [addToGroup, if_pos hk]
      exact List.mem_cons_self _ _
    · obtain ⟨g, hg, hgr, hgi⟩ := ih
      refine ⟨g, ?_, hgr, hgi⟩
      rw [addToGroup, if_neg hk]
      exact List.mem_cons_of_mem _ hg

theorem addToGroup_old_mem (groups : List (Nat × List Nat)) (r i : Nat) :
    ∀ g ∈ groups, ∃ g2 ∈ addToGroup groups r i, g2.1 = g.1 ∧ ∀ x ∈ g.2, x ∈ g2.2 := by
  induction groups with
  | nil => intro g hg; simp at hg
  | cons g0 gs ih =>
    intro g hg
    by_cases hk : g0.1 = r
    · rw [addToGroup, if_pos hk]
      rcases List.mem_cons.mp hg with heq | hgs
      · subst heq
        exact ⟨(g.1, g.2 ++ [i]), List.mem_cons_self _ _, rfl, fun x hx => by simp [hx]⟩
      · exact ⟨g, List.mem_cons_of_mem _ hgs, rfl, fun x hx => hx⟩
    · rw [addToGroup, if_neg hk]
      rcases List.mem_cons.mp hg with heq | hgs
      · subst heq
        exact ⟨g, List.mem_cons_self _ _, rfl, fun x hx => hx⟩
      · obtain ⟨g2, hg2, hk2, hsub⟩ := ih g hgs
        exact ⟨g2, List.mem_cons_of_mem _ hg2, hk2, hsub⟩

theorem GInv_add {rootFn : Nat → Nat} {processed : List Nat}
    {groups : List (Nat × List Nat)} (h : GInv rootFn processed groups) (i : Nat) :
    GInv rootFn (processed ++ [i]) (addToGroup groups (rootFn i) i) := by
  obtain ⟨h1, h2, h3, h4⟩ := h
  refine ⟨?_, addToGroup_keys_nodup h2, ?_, ?_⟩
  · intro g hg x hx
    rcases addToGroup_mem_origin groups (rootFn i) i g hg x hx with ⟨g0, hg0, hk0, hx0⟩ | ⟨hxi, hgr⟩
    · obtain ⟨hxp, hxr⟩ := h1 g0 hg0 x hx0
      exact ⟨by simp [hxp], by rw [hxr, hk0]⟩
    · subst hxi
      exact ⟨by simp, by rw [hgr]⟩
  · intro x hx
    rcases List.mem_append.mp hx with hxp | hxi
    · obtain ⟨g, hg, hxg⟩ := h3 x hxp
      obtain ⟨g2, hg2, _, hsub⟩ := addToGroup_old_mem groups (rootFn i) i g hg
      exact ⟨g2, hg2, hsub x hxg⟩
    · rw [List.mem_singleton] at hxi
      subst hxi
      obtain ⟨g, hg, _, hxg⟩ := addToGroup_self_mem groups (rootFn x) x
      exact ⟨g, hg, hxg⟩
  · intro x
    rw [addToGroup_count, h4 x, List.count_append]
    simp [List.count_cons, List.count_nil]

theorem groupLoop_spec {n : Nat} (rootFn : Nat → Nat) :
    ∀ (rem : List Nat) (p : List Nat) (groups : List (Nat × List Nat))
      (processed : List Nat), WB n p → (∀ x, rootD p x = rootFn x) →
      GInv rootFn processed groups →
      GInv rootFn (processed ++ rem) (groupLoop p groups rem).2 := by
  intro rem
  induction rem with
  | nil =>
    intro p groups processed _ _ hInv
    simpa [groupLoop] using hInv
  | cons i rest ih =>
    intro p groups processed hWB hroots hInv
    obtain ⟨hf2, hWB2, hroots2⟩ := findD_spec hWB i
    have hfr : (findD p i).2 = rootFn i := by rw [hf2, hroots i]
    have hstep : groupLoop p groups (i :: rest)
        = groupLoop (findD p i).1 (addToGroup groups (rootFn i) i) rest := by
      rw [groupLoop, hfr]
    rw [hstep]
    have hroots3 : ∀ x, rootD (findD p i).1 x = rootFn x := by
      intro x
      rw [hroots2 x, hroots x]
    have := ih (findD p i).1 (addToGroup groups (rootFn i) i) (processed ++ [i])
      hWB2 hroots3 (GInv_add hInv i)
    rw [List.append_assoc] at this
    simpa using this

/-! ### Assembly: the clustering contract -/

theorem singleLinkage_spec (distM : ℚ × ℚ → ℚ × ℚ → ℚ) (photos : List PhotoMeta)
    (T : ℚ) (hs : ∀ u v, distM u v = distM v u) :
    (∀ x, ((singleLinkageCluster distM photos T).flatten).count x
        = if x < photos.length then 1 else 0) ∧
    (∀ x y, x < photos.length → y < photos.length →
      ((∃ c ∈ singleLinkageCluster distM photos T, x ∈ c ∧ y ∈ c) ↔
        Relation.ReflTransGen (closeRel distM photos T) x y)) := by
  set n := photos.length with hn
  set p1 := runPairs (distIdx distM photos) T (List.range n) (allPairs n) with hp1
  obtain ⟨hWB1, hiff⟩ := runPairs_spec (distIdx distM photos) T n (allPairs n)
    (List.range n) (WB_range n) allPairs_bounds
  have hGInv0 : GInv (rootD p1) [] [] := by
    refine ⟨?_, ?_, ?_, ?_⟩ <;> simp
  have hG := @groupLoop_spec n (rootD p1) (List.range n) p1 [] []
    hWB1 (fun x => rfl) hGInv0
  rw [List.nil_append] at hG
  obtain ⟨hG1, hG2, hG3, hG4⟩ := hG
  have hclus : singleLinkageCluster distM photos T
      = ((groupLoop p1 [] (List.range n)).2).map (fun g => g.2) := rfl
  have hsame : ∀ x y, x < n → y < n →
      ((∃ c ∈ singleLinkageCluster distM photos T, x ∈ c ∧ y ∈ c) ↔
        rootD p1 x = rootD p1 y) := by
    intro x y hx hy
    constructor
    · rintro ⟨c, hc, hxc, hyc⟩
      rw [hclus, List.mem_map] at hc
      obtain ⟨g, hg, hgc⟩ := hc
      rw [← hgc] at hxc hyc
      have h1 := (hG1 g hg x hxc).2
      have h2 := (hG1 g hg y hyc).2
      rw [h1, h2]
    · intro hroot
      obtain ⟨gx, hgx, hxgx⟩ := hG3 x (List.mem_range.mpr hx)
      obtain ⟨gy, hgy, hygy⟩ := hG3 y (List.mem_range.mpr hy)
      have hkx := (hG1 gx hgx x hxgx).2
      have hky := (hG1 gy hgy y hygy).2
      have hkey : gx.1 = gy.1 := by rw [← hkx, ← hky, hroot]
      have hgxy : gx = gy := by
        have hfun : (fun g : Nat × List Nat => g.1) gx
            = (fun g : Nat × List Nat => g.1) gy := hkey
        exact List.inj_on_of_nodup_map hG2 hgx hgy hfun
      refine ⟨gx.2, ?_, hxgx, ?_⟩
      · rw [hclus, List.mem_map]
        exact ⟨gx, hgx, rfl⟩
      · rw [hgxy]
        exact hygy
  constructor
  · intro x
    have hcnt : ((singleLinkageCluster distM photos T).flatten).count x
        = (List.range n).count x := by
      rw [hclus]
      exact hG4 x
    rw [hcnt]
    by_cases hx : x < n
    · rw [if_pos hx]
      exact List.count_eq_one_of_mem (List.nodup_range n) (List.mem_range.mpr hx)
    · rw [if_neg hx]
      exact List.count_eq_zero_of_not_mem (by rw [List.mem_range]; exact hx)
  · intro x y hx hy
    rw [hsame x y hx hy, hiff x y, rtg_allPairs_close hs]

/-- C1: for every non-empty finite list of photo observations and every
threshold `T`, the Cluster Engine's output clusters partition the
observation indices — each index occurs in exactly one cluster, exactly
once, none omitted — and two observations land in the same cluster iff a
chain of observations connects them in which every consecutive pair is
within distance `T` (`distM` abstracts the great-circle haversine metric,
hence the symmetry hypothesis). -/
theorem claim_C1_clustering_partition_and_threshold
    (distM : ℚ × ℚ → ℚ × ℚ → ℚ) (photos : List PhotoMeta) (T : ℚ)
    (hne : 0 < photos.length) (hs : ∀ u v, distM u v = distM v u) :
    (∀ x, ((singleLinkageCluster distM photos T).flatten).count x
        = if x < photos.length then 1 else 0) ∧
    (∀ x y, x < photos.length → y < photos.length →
      ((∃ c ∈ singleLinkageCluster distM photos T, x ∈ c ∧ y ∈ c) ↔
        Relation.ReflTransGen (closeRel distM photos T) x y)) :=
  singleLinkage_spec distM photos T hs

/-- Witness for C1 at a concrete non-empty input. -/
theorem claim_C1_clustering_partition_and_threshold_witness :
    0 < photosTwo.length ∧ (∀ u v, distM0 u v = distM0 v u) ∧
    ((∀ x, ((singleLinkageCluster distM0 photosTwo 0).flatten).count x
        = if x < photosTwo.length then 1 else 0) ∧
    (∀ x y, x < photosTwo.length → y < photosTwo.length →
      ((∃ c ∈ singleLinkageCluster distM0 photosTwo 0, x ∈ c ∧ y ∈ c) ↔
        Relation.ReflTransGen (closeRel distM0 photosTwo 0) x y))) :=
  ⟨by decide, fun u v => rfl,
    claim_C1_clustering_partition_and_threshold distM0 photosTwo 0 (by decide)
      (fun u v => rfl)⟩

/-! ### Cluster record geometry (C3) -/

theorem foldl_add_eq (l : List ℚ) : ∀ a : ℚ, l.foldl (· + ·) a = a + l.sum := by
  induction l with
  | nil => intro a; simp
  | cons x xs ih =>
    intro a
    rw [List.foldl_cons, List.sum_cons, ih]
    ring

theorem le_foldl_max (l : List ℚ) : ∀ a : ℚ, a ≤ l.foldl max a := by
  induction l with
  | nil => intro a; exact le_refl a
  | cons x xs ih =>
    intro a
    exact le_trans (le_max_left a x) (ih (max a x))

theorem mem_le_foldl_max (l : List ℚ) : ∀ (a x : ℚ), x ∈ l → x ≤ l.foldl max a := by
  induction l with
  | nil => intro a x hx; simp at hx
  | cons y ys ih =>
    intro a x hx
    rcases List.mem_cons.mp hx with heq | hmem
    · subst heq
      exact le_trans (le_max_right a x) (le_foldl_max ys (max a x))
    · exact ih (max a y) x hmem

theorem foldl_max_mem (l : List ℚ) : ∀ a : ℚ, l.foldl max a = a ∨ l.foldl max a ∈ l := by
  induction l with
  | nil => intro a; exact Or.inl rfl
  | cons x xs ih =>
    intro a
    rcases ih (max a x) with heq | hmem
    · rw [List.foldl_cons, heq]
      rcases max_choice a x with h | h
      · exact Or.inl h
      · exact Or.inr (by rw [h]; exact List.mem_cons_self _ _)
    · exact Or.inr (List.mem_cons_of_mem _ hmem)

theorem foldl_max_attained {l : List ℚ} (hne : l ≠ []) (hnn : ∀ x ∈ l, 0 ≤ x) :
    ∃ m ∈ l, l.foldl max 0 = m ∧ ∀ x ∈ l, x ≤ m := by
  rcases foldl_max_mem l 0 with heq | hmem
  · obtain ⟨d, ds, hl⟩ := List.exists_cons_of_ne_nil hne
    have hd : d ∈ l := by rw [hl]; exact List.mem_cons_self _ _
    have hdle : d ≤ l.foldl max 0 := mem_le_foldl_max l 0 d hd
    have hd0 : d = 0 := le_antisymm (heq ▸ hdle) (hnn d hd)
    refine ⟨d, hd, by rw [heq, hd0], fun x hx => ?_⟩
    have hxle : x ≤ l.foldl max 0 := mem_le_foldl_max l 0 x hx
    rw [heq] at hxle
    rw [hd0]
    exact hxle
  · exact ⟨l.foldl max 0, hmem, rfl, fun x hx => mem_le_foldl_max l 0 x hx⟩

theorem map_foldl_max_attained (f : PhotoMeta → ℚ) (cps : List PhotoMeta)
    (hne : cps ≠ []) (hnn : ∀ p ∈ cps, 0 ≤ f p) :
    ∃ p ∈ cps, (cps.map f).foldl max 0 = f p ∧ ∀ q ∈ cps, f q ≤ f p := by
  have h1 : cps.map f ≠ [] := by simp [hne]
  have h2 : ∀ x ∈ cps.map f, 0 ≤ x := by
    intro x hx
    rw [List.mem_map] at hx
    obtain ⟨p, hp, hfp⟩ := hx
    rw [← hfp]
    exact hnn p hp
  obtain ⟨m, hm, hfold, hub⟩ := foldl_max_attained h1 h2
  rw [List.mem_map] at hm
  obtain ⟨p, hp, hfp⟩ := hm
  refine ⟨p, hp, by rw [hfold, ← hfp], fun q hq => ?_⟩
  exact le_trans (hub (f q) (List.mem_map_of_mem f hq)) (le_of_eq hfp.symm)

theorem round2_zero : round2 0 = 0 := by
  unfold round2
  norm_num

theorem mkCluster_radius (distM : ℚ × ℚ → ℚ × ℚ → ℚ) (geohash6 : ℚ → ℚ → String)
    (photos : List PhotoMeta) (indices : List Nat) :
    (mkCluster distM geohash6 photos indices).radius_m
      = round2 (((indices.map (getPh photos)).map (fun p =>
          distM ((mkCluster distM geohash6 photos indices).centerLon,
            (mkCluster distM geohash6 photos indices).centerLat)
            (p.lon, p.lat))).foldl max 0) := rfl

/-- C3: the center of every cluster record is the simple arithmetic mean
of the member latitudes and longitudes, `radius_m` is the maximum distance
from the center to a member rounded to two decimals, and a singleton
cluster has `radius_m = 0` (the hypotheses state that the abstracted
metric is nonnegative and vanishes on equal points, as the haversine
distance does). -/
theorem claim_C3_center_mean_radius_max
    (distM : ℚ × ℚ → ℚ × ℚ → ℚ) (geohash6 : ℚ → ℚ → String)
    (photos : List PhotoMeta) (indices : List Nat)
    (hne : indices ≠ []) (hnn : ∀ u v, 0 ≤ distM u v) (h0 : ∀ u, distM u u = 0) :
    (mkCluster distM geohash6 photos indices).centerLat
        = ((indices.map (getPh photos)).map (fun p => p.lat)).sum
          / ((indices.map (getPh photos)).length : ℚ) ∧
    (mkCluster distM geohash6 photos indices).centerLon
        = ((indices.map (getPh photos)).map (fun p => p.lon)).sum
          / ((indices.map (getPh photos)).length : ℚ) ∧
    (∃ p ∈ indices.map (getPh photos),
      (mkCluster distM geohash6 photos indices).radius_m
          = round2 (distM ((mkCluster distM geohash6 photos indices).centerLon,
              (mkCluster distM geohash6 photos indices).centerLat) (p.lon, p.lat)) ∧
      ∀ q ∈ indices.map (getPh photos),
        distM ((mkCluster distM geohash6 photos indices).centerLon,
            (mkCluster distM geohash6 photos indices).centerLat) (q.lon, q.lat)
          ≤ distM ((mkCluster distM geohash6 photos indices).centerLon,
              (mkCluster distM geohash6 photos indices).centerLat) (p.lon, p.lat)) ∧
    (indices.length = 1 → (mkCluster distM geohash6 photos indices).radius_m = 0) := by
  have hlat : (mkCluster distM geohash6 photos indices).centerLat
      = ((indices.map (getPh photos)).map (fun p => p.lat)).sum
        / ((indices.map (getPh photos)).length : ℚ) := by
    simp only [mkCluster]
    rw [foldl_add_eq, zero_add]
  have hlon : (mkCluster distM geohash6 photos indices).centerLon
      = ((indices.map (getPh photos)).map (fun p => p.lon)).sum
        / ((indices.map (getPh photos)).length : ℚ) := by
    simp only [mkCluster]
    rw [foldl_add_eq, zero_add]
  refine ⟨hlat, hlon, ?_, ?_⟩
  · obtain ⟨p, hp, hfold, hub⟩ := map_foldl_max_attained
      (fun p => distM ((mkCluster distM geohash6 photos indices).centerLon,
        (mkCluster distM geohash6 photos indices).centerLat) (p.lon, p.lat))
      (indices.map (getPh photos)) (by simp [hne]) (fun p _ => hnn _ _)
    refine ⟨p, hp, ?_, hub⟩
    rw [mkCluster_radius, hfold]
  · intro hlen1
    obtain ⟨i, hi⟩ := List.length_eq_one.mp hlen1
    subst hi
    have hclat : (mkCluster distM geohash6 photos [i]).centerLat
        = (getPh photos i).lat := by
      rw [hlat]
      simp
    have hclon : (mkCluster distM geohash6 photos [i]).centerLon
        = (getPh photos i).lon := by
      rw [hlon]
      simp
    rw [mkCluster_radius]
    simp only [List.map_cons, List.map_nil, List.foldl_cons, List.foldl_nil]
    rw [hclat, hclon, h0, max_self]
    exact round2_zero

/-- Witness for C3 at a concrete single-member cluster. -/
theorem claim_C3_center_mean_radius_max_witness :
    ([0] : List Nat) ≠ [] ∧
    ((mkCluster distM0 geohash0 photosTwo [0]).centerLat
        = ((([0] : List Nat).map (getPh photosTwo)).map (fun p => p.lat)).sum
          / ((([0] : List Nat).map (getPh photosTwo)).length : ℚ) ∧
    (mkCluster distM0 geohash0 photosTwo [0]).centerLon
        = ((([0] : List Nat).map (getPh photosTwo)).map (fun p => p.lon)).sum
          / ((([0] : List Nat).map (getPh photosTwo)).length : ℚ) ∧
    (∃ p ∈ ([0] : List Nat).map (getPh photosTwo),
      (mkCluster distM0 geohash0 photosTwo [0]).radius_m
          = round2 (distM0 ((mkCluster distM0 geohash0 photosTwo [0]).centerLon,
              (mkCluster distM0 geohash0 photosTwo [0]).centerLat) (p.lon, p.lat)) ∧
      ∀ q ∈ ([0] : List Nat).map (getPh photosTwo),
        distM0 ((mkCluster distM0 geohash0 photosTwo [0]).centerLon,
            (mkCluster distM0 geohash0 photosTwo [0]).centerLat) (q.lon, q.lat)
          ≤ distM0 ((mkCluster distM0 geohash0 photosTwo [0]).centerLon,
              (mkCluster distM0 geohash0 photosTwo [0]).centerLat) (p.lon, p.lat)) ∧
    (([0] : List Nat).length = 1 →
      (mkCluster distM0 geohash0 photosTwo [0]).radius_m = 0)) :=
  ⟨by decide,
    claim_C3_center_mean_radius_max distM0 geohash0 photosTwo [0] (by decide)
      (fun u v => le_refl 0) (fun u => rfl)⟩

/-! ### The Cluster Engine's empty-input failure (C9) -/

/-- C9: the Cluster Engine fails with `EmptyInputError` exactly when zero
usable observations reach it, and every non-empty input yields a cluster
list instead. -/
theorem claim_C9_empty_input_error (distM : ℚ × ℚ → ℚ × ℚ → ℚ)
    (geohash6 : ℚ → ℚ → String) (photos : List PhotoMeta) (T : ℚ) :
    (clusterMain distM geohash6 photos T = Except.error ClusterError.emptyInput ↔
      photos = []) ∧
    (photos ≠ [] → ∃ cs, clusterMain distM geohash6 photos T = Except.ok cs) := by
  constructor
  · constructor
    · intro herr
      by_cases h : photos.length = 0
      · exact List.length_eq_zero.mp h
      · rw [clusterMain, if_neg h] at herr
        exact Except.noConfusion herr
    · intro hempty
      subst hempty
      rfl
  · intro hne
    have h : ¬ photos.length = 0 := fun h0 => hne (List.length_eq_zero.mp h0)
    rw [clusterMain, if_neg h]
    exact ⟨_, rfl⟩

/-- Witness for C9: the empty input fails, a non-empty input succeeds. -/
theorem claim_C9_empty_input_error_witness :
    clusterMain distM0 geohash0 [] 0 = Except.error ClusterError.emptyInput ∧
    (∃ cs, clusterMain distM0 geohash0 photosTwo 0 = Except.ok cs) :=
  ⟨(claim_C9_empty_input_error distM0 geohash0 [] 0).1.mpr rfl,
    (claim_C9_empty_input_error distM0 geohash0 photosTwo 0).2 (by decide)⟩

/-! ### The Matcher's fatal no-geometry path (C10) -/

/-- C10: when no trail has at least 2 coordinates (including an empty
trails collection), the Matcher aborts fatally with an error and produces
no Intersection output, regardless of the clusters input. -/
theorem claim_C10_no_usable_geometry_fatal (pSeg : ℚ × ℚ → ℚ × ℚ → ℚ × ℚ → ℚ)
    (clusters : List ClusterRec) (trails : List TrailFeature) (bufCfg : ℚ)
    (h : (trails.filter (fun t => decide (2 ≤ t.coords.length))).length = 0) :
    enrichMain pSeg clusters trails bufCfg
      = Except.error "No trail geometry found. All trails have empty coordinates." := by
  rw [enrichMain, if_pos h]

/-- Witness for C10 on a trails list holding only a degenerate trail. -/
theorem claim_C10_no_usable_geometry_fatal_witness :
    (([trailDeg].filter (fun t => decide (2 ≤ t.coords.length))).length = 0) ∧
    enrichMain pSeg0 [clusterC0] [trailDeg] 30
      = Except.error "No trail geometry found. All trails have empty coordinates." :=
  ⟨by decide, claim_C10_no_usable_geometry_fatal pSeg0 [clusterC0] [trailDeg] 30 (by decide)⟩

/-! ### Point-to-line matching (C2) -/

theorem foldl_min_le_init (l : List ℚ) : ∀ a : ℚ, l.foldl min a ≤ a := by
  induction l with
  | nil => intro a; exact le_refl a
  | cons x xs ih =>
    intro a
    exact le_trans (ih (min a x)) (min_le_left a x)

theorem foldl_min_le_mem (l : List ℚ) : ∀ (a x : ℚ), x ∈ l → l.foldl min a ≤ x := by
  induction l with
  | nil => intro a x hx; simp at hx
  | cons y ys ih =>
    intro a x hx
    rcases List.mem_cons.mp hx with heq | hmem
    · subst heq
      exact le_trans (foldl_min_le_init ys (min a x)) (min_le_right a x)
    · exact ih (min a y) x hmem

theorem foldl_min_mem (l : List ℚ) : ∀ a : ℚ, l.foldl min a = a ∨ l.foldl min a ∈ l := by
  induction l with
  | nil => intro a; exact Or.inl rfl
  | cons x xs ih =>
    intro a
    rcases ih (min a x) with heq | hmem
    · rw [List.foldl_cons, heq]
      rcases min_choice a x with h | h
      · exact Or.inl h
      · exact Or.inr (by rw [h]; exact List.mem_cons_self _ _)
    · exact Or.inr (List.mem_cons_of_mem _ hmem)

theorem segDists_ne_nil {pSeg : ℚ × ℚ → ℚ × ℚ → ℚ × ℚ → ℚ} {pt : ℚ × ℚ}
    {coords : List (ℚ × ℚ)} (h2 : 2 ≤ coords.length) :
    segDists pSeg pt coords ≠ [] := by
  have hlen : (segDists pSeg pt coords).length = coords.length - 1 := by
    unfold segDists
    rw [List.length_map, List.length_zip, List.length_tail]
    omega
  intro hc
  rw [hc] at hlen
  simp only [List.length_nil] at hlen
  omega

/-- C2: for every trail with at least one segment, membership in a
cluster's matched-trail list holds exactly when the minimum of the
point-to-segment distances from the cluster center is at most
`radius_m + intersection_buffer_m`, and that minimum is attained by one of
the segment distances. -/
theorem claim_C2_match_iff_min_segment_distance (pSeg : ℚ × ℚ → ℚ × ℚ → ℚ × ℚ → ℚ)
    (trails : List TrailFeature) (c : ClusterRec) (bufCfg : ℚ) (t : TrailFeature)
    (ht : t ∈ trails) (h2 : 2 ≤ t.coords.length) :
    ∃ dm ∈ segDists pSeg (c.centerLon, c.centerLat) t.coords,
      (∀ d2 ∈ segDists pSeg (c.centerLon, c.centerLat) t.coords, dm ≤ d2) ∧
      (t ∈ matchedTrails pSeg trails c bufCfg ↔ dm ≤ c.radius_m + bufCfg) := by
  obtain ⟨d, ds, hsd⟩ :=
    List.exists_cons_of_ne_nil (@segDists_ne_nil pSeg (c.centerLon, c.centerLat) t.coords h2)
  have hptld : pointToLineDistance pSeg (c.centerLon, c.centerLat) t.coords
      = ds.foldl min d := by
    rw [pointToLineDistance, hsd]
  refine ⟨ds.foldl min d, ?_, ?_, ?_⟩
  · rw [hsd]
    rcases foldl_min_mem ds d with heq | hmem
    · rw [heq]
      exact List.mem_cons_self _ _
    · exact List.mem_cons_of_mem _ hmem
  · intro d2 hd2
    rw [hsd] at hd2
    rcases List.mem_cons.mp hd2 with heq | hmem
    · rw [heq]
      exact foldl_min_le_init ds d
    · exact foldl_min_le_mem ds d d2 hmem
  · rw [matchedTrails, List.mem_filter]
    constructor
    · rintro ⟨_, hp⟩
      rw [Bool.and_eq_true, decide_eq_true_eq, decide_eq_true_eq] at hp
      rw [← hptld]
      exact hp.2
    · intro hle
      refine ⟨ht, ?_⟩
      rw [Bool.and_eq_true, decide_eq_true_eq, decide_eq_true_eq]
      exact ⟨h2, by rw [hptld]; exact hle⟩

/-- Witness for C2 on a concrete two-point trail. -/
theorem claim_C2_match_iff_min_segment_distance_witness :
    trailGood ∈ [trailDeg, trailGood] ∧ 2 ≤ trailGood.coords.length ∧
    (∃ dm ∈ segDists pSeg0 (clusterC0.centerLon, clusterC0.centerLat) trailGood.coords,
      (∀ d2 ∈ segDists pSeg0 (clusterC0.centerLon, clusterC0.centerLat) trailGood.coords,
        dm ≤ d2) ∧
      (trailGood ∈ matchedTrails pSeg0 [trailDeg, trailGood] clusterC0 30 ↔
        dm ≤ clusterC0.radius_m + 30)) :=
  ⟨by decide, by decide,
    claim_C2_match_iff_min_segment_distance pSeg0 [trailDeg, trailGood] clusterC0 30
      trailGood (by decide) (by decide)⟩

/-! ### Per-cluster aggregation (C5) -/

theorem nameOr_ne_empty (o : Option String) : nameOr o ≠ "" := by
  unfold nameOr
  cases o with
  | none => decide
  | some s =>
    show (if s = "" then "Unknown" else s) ≠ ""
    by_cases hs : s = ""
    · rw [if_pos hs]
      decide
    · rw [if_neg hs]
      exact hs

/-- C5: `trail_names` carries exactly one name per matched trail (with
"Unknown" substituted for an absent or empty name and nothing silently
dropped), each activity flag is the disjunction of the matched trails'
flags with absence read as false, and `trail_count` counts matched trails
with multiplicity. -/
theorem claim_C5_aggregation (pSeg : ℚ × ℚ → ℚ × ℚ → ℚ × ℚ → ℚ)
    (trails : List TrailFeature) (bufCfg : ℚ) (c : ClusterRec) :
    (mkIntersection pSeg trails bufCfg c).trail_names
        = (matchedTrails pSeg trails c bufCfg).map (fun t => nameOr t.props.name) ∧
    (mkIntersection pSeg trails bufCfg c).trail_names.length
        = (mkIntersection pSeg trails bufCfg c).trail_count ∧
    (mkIntersection pSeg trails bufCfg c).trail_count
        = (matchedTrails pSeg trails c bufCfg).length ∧
    ((mkIntersection pSeg trails bufCfg c).snowshoe = true ↔
      ∃ t ∈ matchedTrails pSeg trails c bufCfg, t.props.snowshoe = some true) ∧
    ((mkIntersection pSeg trails bufCfg c).nordic_ski = true ↔
      ∃ t ∈ matchedTrails pSeg trails c bufCfg, t.props.nordic_ski = some true) ∧
    ((mkIntersection pSeg trails bufCfg c).winter_fat_bike = true ↔
      ∃ t ∈ matchedTrails pSeg trails c bufCfg, t.props.winter_fat_bike = some true) ∧
    ((mkIntersection pSeg trails bufCfg c).summer_mtb = true ↔
      ∃ t ∈ matchedTrails pSeg trails c bufCfg, t.props.summer_mtb = some true) := by
  have hnames : (mkIntersection pSeg trails bufCfg c).trail_names
      = (matchedTrails pSeg trails c bufCfg).map (fun t => nameOr t.props.name) := by
    show ((matchedTrails pSeg trails c bufCfg).map
        (fun t => nameOr t.props.name)).filter (fun s => s ≠ "")
      = (matchedTrails pSeg trails c bufCfg).map (fun t => nameOr t.props.name)
    rw [List.filter_eq_self]
    intro s hs
    rw [List.mem_map] at hs
    obtain ⟨t, _, hts⟩ := hs
    rw [decide_eq_true_eq, ← hts]
    exact nameOr_ne_empty t.props.name
  refine ⟨hnames, ?_, rfl, ?_, ?_, ?_, ?_⟩
  · rw [hnames, List.length_map]
    rfl
  all_goals
    show List.any _ _ = true ↔ _
    rw [List.any_eq_true]
    constructor
    · rintro ⟨t, ht, hflag⟩
      rw [beq_iff_eq] at hflag
      exact ⟨t, ht, hflag⟩
    · rintro ⟨t, ht, hflag⟩
      exact ⟨t, ht, by rw [beq_iff_eq]; exact hflag⟩

/-! ### Buffer monotonicity (C6) -/

theorem filter_length_mono {α : Type} (l : List α) (p q : α → Bool)
    (h : ∀ a ∈ l, p a = true → q a = true) :
    (l.filter p).length ≤ (l.filter q).length := by
  induction l with
  | nil => exact le_refl 0
  | cons x xs ih =>
    have hx := h x (List.mem_cons_self _ _)
    have hxs : ∀ a ∈ xs, p a = true → q a = true :=
      fun a ha => h a (List.mem_cons_of_mem _ ha)
    rw [List.filter_cons, List.filter_cons]
    by_cases hp : p x = true
    · rw [if_pos hp, if_pos (hx hp)]
      simpa using ih hxs
    · rw [if_neg hp]
      by_cases hq : q x = true
      · rw [if_pos hq]
        exact le_trans (ih hxs) (by simp)
      · rw [if_neg hq]
        exact ih hxs

/-- C6: enlarging the intersection buffer only grows each cluster's
matched-trail set, and therefore never decreases `trail_count`. -/
theorem claim_C6_buffer_monotone (pSeg : ℚ × ℚ → ℚ × ℚ → ℚ × ℚ → ℚ)
    (trails : List TrailFeature) (c : ClusterRec) (b1 b2 : ℚ) (h : b1 ≤ b2) :
    (∀ t ∈ matchedTrails pSeg trails c b1, t ∈ matchedTrails pSeg trails c b2) ∧
    (mkIntersection pSeg trails b1 c).trail_count
      ≤ (mkIntersection pSeg trails b2 c).trail_count := by
  have himp : ∀ t ∈ trails,
      (decide (2 ≤ t.coords.length) &&
        decide (pointToLineDistance pSeg (c.centerLon, c.centerLat) t.coords
          ≤ c.radius_m + b1)) = true →
      (decide (2 ≤ t.coords.length) &&
        decide (pointToLineDistance pSeg (c.centerLon, c.centerLat) t.coords
          ≤ c.radius_m + b2)) = true := by
    intro t _ hp
    rw [Bool.and_eq_true, decide_eq_true_eq, decide_eq_true_eq] at hp ⊢
    exact ⟨hp.1, le_trans hp.2 (by linarith)⟩
  constructor
  · intro t ht
    rw [matchedTrails, List.mem_filter] at ht ⊢
    exact ⟨ht.1, himp t ht.1 ht.2⟩
  · show (matchedTrails pSeg trails c b1).length ≤ (matchedTrails pSeg trails c b2).length
    exact filter_length_mono trails _ _ himp

/-- Witness for C6 at concrete buffers 10 ≤ 30. -/
theorem claim_C6_buffer_monotone_witness :
    ((10 : ℚ) ≤ 30) ∧
    ((∀ t ∈ matchedTrails pSeg0 [trailDeg, trailGood] clusterC0 10,
        t ∈ matchedTrails pSeg0 [trailDeg, trailGood] clusterC0 30) ∧
    (mkIntersection pSeg0 [trailDeg, trailGood] 10 clusterC0).trail_count
      ≤ (mkIntersection pSeg0 [trailDeg, trailGood] 30 clusterC0).trail_count) :=
  ⟨by norm_num,
    claim_C6_buffer_monotone pSeg0 [trailDeg, trailGood] clusterC0 10 30 (by norm_num)⟩

/-! ### Per-cluster emission and warnings (C7) -/

theorem enrichMain_ok_inv {pSeg : ℚ × ℚ → ℚ × ℚ → ℚ × ℚ → ℚ}
    {clusters : List ClusterRec} {trails : List TrailFeature} {bufCfg : ℚ}
    {out : List Intersection} {w : List String}
    (hok : enrichMain pSeg clusters trails bufCfg = Except.ok (out, w)) :
    out = sortByTrailCountDesc (enrichRecords pSeg clusters trails bufCfg) ∧
    w = clusters.filterMap (warnOf pSeg trails bufCfg) := by
  rw [enrichMain] at hok
  by_cases h : (trails.filter (fun t => decide (2 ≤ t.coords.length))).length = 0
  · rw [if_pos h] at hok
    exact Except.noConfusion hok
  · rw [if_neg h] at hok
    have hp := Except.ok.inj hok
    exact ⟨(congrArg Prod.fst hp).symm, (congrArg Prod.snd hp).symm⟩

/-- C7: on success the Matcher emits exactly one Intersection record per
input cluster; a cluster matching zero trails is still emitted, with
`trail_count = 0` and a non-fatal warning naming it. -/
theorem claim_C7_one_record_per_cluster (pSeg : ℚ × ℚ → ℚ × ℚ → ℚ × ℚ → ℚ)
    (clusters : List ClusterRec) (trails : List TrailFeature) (bufCfg : ℚ)
    (out : List Intersection) (w : List String)
    (hok : enrichMain pSeg clusters trails bufCfg = Except.ok (out, w)) :
    out.length = clusters.length ∧
    ∀ c ∈ clusters, mkIntersection pSeg trails bufCfg c ∈ out ∧
      (matchedTrails pSeg trails c bufCfg = [] →
        (mkIntersection pSeg trails bufCfg c).trail_count = 0 ∧
        ("Warning: cluster " ++ c.cluster_id ++ " has no intersecting trails") ∈ w) := by
  obtain ⟨hout, hw⟩ := enrichMain_ok_inv hok
  subst hout
  subst hw
  have hperm : List.Perm (sortByTrailCountDesc (enrichRecords pSeg clusters trails bufCfg))
      (enrichRecords pSeg clusters trails bufCfg) :=
    List.perm_insertionSort descTC _
  constructor
  · rw [hperm.length_eq]
    exact List.length_map _ _
  · intro c hc
    have hmem : mkIntersection pSeg trails bufCfg c
        ∈ enrichRecords pSeg clusters trails bufCfg :=
      List.mem_map_of_mem _ hc
    refine ⟨hperm.mem_iff.mpr hmem, fun hempty => ⟨?_, ?_⟩⟩
    · show (matchedTrails pSeg trails c bufCfg).length = 0
      rw [hempty]
      rfl
    · rw [List.mem_filterMap]
      refine ⟨c, hc, ?_⟩
      rw [warnOf, if_pos (by rw [hempty]; rfl)]

theorem matched_pSeg0_good :
    matchedTrails pSeg0 [trailGood] clusterC0 30 = [trailGood] := by
  have hcond : (decide (2 ≤ trailGood.coords.length) && decide
      (pointToLineDistance pSeg0 (clusterC0.centerLon, clusterC0.centerLat) trailGood.coords
        ≤ clusterC0.radius_m + 30)) = true := by
    rw [Bool.and_eq_true, decide_eq_true_eq, decide_eq_true_eq]
    constructor
    · decide
    · show (0 : ℚ) ≤ (0 : ℚ) + 30
      norm_num
  simp only [matchedTrails, List.filter_cons, List.filter_nil]
  rw [if_pos hcond]

theorem matched_pSegFar_good :
    matchedTrails pSegFar [trailGood] clusterC0 30 = [] := by
  have hcond : ¬ ((decide (2 ≤ trailGood.coords.length) && decide
      (pointToLineDistance pSegFar (clusterC0.centerLon, clusterC0.centerLat) trailGood.coords
        ≤ clusterC0.radius_m + 30)) = true) := by
    rw [Bool.and_eq_true, decide_eq_true_eq, decide_eq_true_eq]
    rintro ⟨h1, h2⟩
    have h3 : (100 : ℚ) ≤ (0 : ℚ) + 30 := h2
    norm_num at h3
  simp only [matchedTrails, List.filter_cons, List.filter_nil]
  rw [if_neg hcond]

theorem enrichMain_eval_pSeg0 : enrichMain pSeg0 [clusterC0] [trailGood] 30
    = Except.ok ([mkIntersection pSeg0 [trailGood] 30 clusterC0], []) := by
  have hlen : ¬ (([trailGood] : List TrailFeature).filter
      (fun t => decide (2 ≤ t.coords.length))).length = 0 := by decide
  rw [enrichMain, if_neg hlen]
  have hwarn : warnOf pSeg0 [trailGood] 30 clusterC0 = none := by
    rw [warnOf, if_neg]
    rw [matched_pSeg0_good]
    simp
  have hfm : List.filterMap (warnOf pSeg0 [trailGood] 30) [clusterC0] = [] := by
    simp [List.filterMap_cons, hwarn]
  rw [hfm]
  rfl

theorem enrichMain_eval_pSegFar : enrichMain pSegFar [clusterC0] [trailGood] 30
    = Except.ok ([mkIntersection pSegFar [trailGood] 30 clusterC0],
        ["Warning: cluster " ++ clusterC0.cluster_id ++ " has no intersecting trails"]) := by
  have hlen : ¬ (([trailGood] : List TrailFeature).filter
      (fun t => decide (2 ≤ t.coords.length))).length = 0 := by decide
  rw [enrichMain, if_neg hlen]
  have hwarn : warnOf pSegFar [trailGood] 30 clusterC0
      = some ("Warning: cluster " ++ clusterC0.cluster_id
          ++ " has no intersecting trails") := by
    rw [warnOf, if_pos]
    rw [matched_pSegFar_good]
    rfl
  have hfm : List.filterMap (warnOf pSegFar [trailGood] 30) [clusterC0]
      = ["Warning: cluster " ++ clusterC0.cluster_id ++ " has no intersecting trails"] := by
    simp [List.filterMap_cons, hwarn]
  rw [hfm]
  rfl

/-- Witness for C7 at a concrete zero-match cluster. -/
theorem claim_C7_one_record_per_cluster_witness :
    (enrichMain pSegFar [clusterC0] [trailGood] 30
        = Except.ok ([mkIntersection pSegFar [trailGood] 30 clusterC0],
            ["Warning: cluster " ++ clusterC0.cluster_id ++ " has no intersecting trails"])) ∧
    (([mkIntersection pSegFar [trailGood] 30 clusterC0] : List Intersection).length
        = ([clusterC0] : List ClusterRec).length ∧
      ∀ c ∈ [clusterC0], mkIntersection pSegFar [trailGood] 30 c
          ∈ [mkIntersection pSegFar [trailGood] 30 clusterC0] ∧
        (matchedTrails pSegFar [trailGood] c 30 = [] →
          (mkIntersection pSegFar [trailGood] 30 c).trail_count = 0 ∧
          ("Warning: cluster " ++ c.cluster_id ++ " has no intersecting trails")
            ∈ ["Warning: cluster " ++ clusterC0.cluster_id
                ++ " has no intersecting trails"])) :=
  ⟨enrichMain_eval_pSegFar,
    claim_C7_one_record_per_cluster pSegFar [clusterC0] [trailGood] 30 _ _
      enrichMain_eval_pSegFar⟩

/-! ### Output ordering and stability (C4) -/

theorem orderedInsert_filter_keep (k : Nat) (x : Intersection)
    (hx : x.trail_count = k) :
    ∀ l : List Intersection,
      (List.orderedInsert descTC x l).filter (fun r => r.trail_count == k)
        = x :: l.filter (fun r => r.trail_count == k) := by
  intro l
  induction l with
  | nil =>
    show [x].filter (fun r => r.trail_count == k) = [x]
    simp [hx]
  | cons y ys ih =>
    rw [List.orderedInsert]
    by_cases hr : descTC x y
    · rw [if_pos hr]
      simp [List.filter_cons, hx]
    · rw [if_neg hr]
      have hy : y.trail_count ≠ k := by
        unfold descTC at hr
        omega
      simp [List.filter_cons, hy, ih]

theorem orderedInsert_filter_drop (k : Nat) (x : Intersection)
    (hx : x.trail_count ≠ k) :
    ∀ l : List Intersection,
      (List.orderedInsert descTC x l).filter (fun r => r.trail_count == k)
        = l.filter (fun r => r.trail_count == k) := by
  intro l
  induction l with
  | nil =>
    show [x].filter (fun r => r.trail_count == k) = []
    simp [hx]
  | cons y ys ih =>
    rw [List.orderedInsert]
    by_cases hr : descTC x y
    · rw [if_pos hr]
      simp [List.filter_cons, hx]
    · rw [if_neg hr]
      simp only [List.filter_cons, ih]

theorem sortDesc_filter (k : Nat) :
    ∀ l : List Intersection,
      (sortByTrailCountDesc l).filter (fun r => r.trail_count == k)
        = l.filter (fun r => r.trail_count == k) := by
  intro l
  induction l with
  | nil => rfl
  | cons x xs ih =>
    have hunfold : sortByTrailCountDesc (x :: xs)
        = List.orderedInsert descTC x (sortByTrailCountDesc xs) := rfl
    rw [hunfold]
    by_cases hx : x.trail_count = k
    · rw [orderedInsert_filter_keep k x hx (sortByTrailCountDesc xs), ih]
      simp [List.filter_cons, hx]
    · rw [orderedInsert_filter_drop k x hx (sortByTrailCountDesc xs), ih]
      simp [List.filter_cons, hx]

/-- C4: on success the Matcher's record list is non-increasing in
`trail_count`, and for every count value the records carrying it appear in
exactly their input-cluster order (stability); determinism across runs is
immediate because the embedded Matcher is a pure function of its input. -/
theorem claim_C4_sorted_and_stable (pSeg : ℚ × ℚ → ℚ × ℚ → ℚ × ℚ → ℚ)
    (clusters : List ClusterRec) (trails : List TrailFeature) (bufCfg : ℚ)
    (out : List Intersection) (w : List String)
    (hok : enrichMain pSeg clusters trails bufCfg = Except.ok (out, w)) :
    List.Chain' (fun a b => b.trail_count ≤ a.trail_count) out ∧
    ∀ k, out.filter (fun r => r.trail_count == k)
        = (enrichRecords pSeg clusters trails bufCfg).filter
            (fun r => r.trail_count == k) := by
  obtain ⟨hout, _⟩ := enrichMain_ok_inv hok
  subst hout
  constructor
  · have hs : List.Sorted descTC
        (sortByTrailCountDesc (enrichRecords pSeg clusters trails bufCfg)) :=
      List.sorted_insertionSort descTC _
    exact hs.chain'
  · intro k
    exact sortDesc_filter k _

/-- Witness for C4 at a concrete matched cluster. -/
theorem claim_C4_sorted_and_stable_witness :
    (enrichMain pSeg0 [clusterC0] [trailGood] 30
        = Except.ok ([mkIntersection pSeg0 [trailGood] 30 clusterC0], [])) ∧
    (List.Chain' (fun a b => b.trail_count ≤ a.trail_count)
        [mkIntersection pSeg0 [trailGood] 30 clusterC0] ∧
      ∀ k, ([mkIntersection pSeg0 [trailGood] 30 clusterC0] :
            List Intersection).filter (fun r => r.trail_count == k)
          = (enrichRecords pSeg0 [clusterC0] [trailGood] 30).filter
              (fun r => r.trail_count == k)) :=
  ⟨enrichMain_eval_pSeg0,
    claim_C4_sorted_and_stable pSeg0 [clusterC0] [trailGood] 30 _ _
      enrichMain_eval_pSeg0⟩

/-! ### Degenerate trail geometry (C8) -/

theorem matched_pSeg0_two :
    matchedTrails pSeg0 [trailDeg, trailGood] clusterC0 30 = [trailGood] := by
  have hcond : (decide (2 ≤ trailGood.coords.length) && decide
      (pointToLineDistance pSeg0 (clusterC0.centerLon, clusterC0.centerLat) trailGood.coords
        ≤ clusterC0.radius_m + 30)) = true := by
    rw [Bool.and_eq_true, decide_eq_true_eq, decide_eq_true_eq]
    constructor
    · decide
    · show (0 : ℚ) ≤ (0 : ℚ) + 30
      norm_num
  simp only [matchedTrails, List.filter_cons, List.filter_nil]
  rw [if_neg (by decide), if_pos hcond]

/-- C8 counterexample: on an input containing a degenerate one-coordinate
trail (next to a usable trail, so the fatal path is not taken), the
Matcher succeeds with an empty warnings list — no warning of any kind, in
particular no `DegenerateGeometryWarning`, is surfaced to the operator for
the skipped trail. -/
theorem claim_C8_counterexample :
    trailDeg ∈ ([trailDeg, trailGood] : List TrailFeature) ∧
    trailDeg.coords.length < 2 ∧
    enrichMain pSeg0 [clusterC0] [trailDeg, trailGood] 30
      = Except.ok ([mkIntersection pSeg0 [trailDeg, trailGood] 30 clusterC0], []) := by
  refine ⟨by decide, by decide, ?_⟩
  have hlen : ¬ (([trailDeg, trailGood] : List TrailFeature).filter
      (fun t => decide (2 ≤ t.coords.length))).length = 0 := by decide
  rw [enrichMain, if_neg hlen]
  have hwarn : warnOf pSeg0 [trailDeg, trailGood] 30 clusterC0 = none := by
    rw [warnOf, if_neg]
    rw [matched_pSeg0_two]
    simp
  have hfm : List.filterMap (warnOf pSeg0 [trailDeg, trailGood] 30) [clusterC0] = [] := by
    simp [List.filterMap_cons, hwarn]
  rw [hfm]
  rfl

/-- C8 (amended): a trail with fewer than 2 coordinates is excluded from
matching for every cluster, and the Matcher continues without error
whenever at least one usable trail remains; however, the exclusion is
silent — the code emits no `DegenerateGeometryWarning` (see the
counterexample). -/
theorem claim_C8_degenerate_excluded_silently (pSeg : ℚ × ℚ → ℚ × ℚ → ℚ × ℚ → ℚ)
    (clusters : List ClusterRec) (trails : List TrailFeature) (bufCfg : ℚ)
    (t : TrailFeature) (ht : t ∈ trails) (hdeg : t.coords.length < 2) :
    (∀ c : ClusterRec, t ∉ matchedTrails pSeg trails c bufCfg) ∧
    ((trails.filter (fun t2 => decide (2 ≤ t2.coords.length))).length ≠ 0 →
      ∃ out w, enrichMain pSeg clusters trails bufCfg = Except.ok (out, w)
        ∧ out.length = clusters.length) := by
  constructor
  · intro c hmem
    rw [matchedTrails, List.mem_filter] at hmem
    have h2 := hmem.2
    rw [Bool.and_eq_true, decide_eq_true_eq, decide_eq_true_eq] at h2
    have := h2.1
    omega
  · intro hlen
    rw [enrichMain, if_neg hlen]
    refine ⟨_, _, rfl, ?_⟩
    have hp : (sortByTrailCountDesc (enrichRecords pSeg clusters trails bufCfg)).length
        = (enrichRecords pSeg clusters trails bufCfg).length :=
      (List.perm_insertionSort descTC _).length_eq
    rw [hp]
    exact List.length_map _ _

/-- Witness for the amended C8 at the concrete degenerate trail. -/
theorem claim_C8_degenerate_excluded_silently_witness :
    trailDeg ∈ ([trailDeg, trailGood] : List TrailFeature) ∧
    trailDeg.coords.length < 2 ∧
    ((∀ c : ClusterRec, trailDeg ∉ matchedTrails pSeg0 [trailDeg, trailGood] c 30) ∧
      ((([trailDeg, trailGood] : List TrailFeature).filter
          (fun t2 => decide (2 ≤ t2.coords.length))).length ≠ 0 →
        ∃ out w, enrichMain pSeg0 [clusterC0] [trailDeg, trailGood] 30
            = Except.ok (out, w) ∧ out.length = ([clusterC0] : List ClusterRec).length)) :=
  ⟨by decide, by decide,
    claim_C8_degenerate_excluded_silently pSeg0 [clusterC0] [trailDeg, trailGood] 30
      trailDeg (by decide) (by decide)⟩

end Kimberley
